import Mathlib

/-!
Verification of the RAG document-to-context pipeline of the
hackathon-todo backend (`backend/rag/`): text chunking, embedding
batching, per-user vector storage, ingestion and retrieval.

Python strings are modelled as `List Char`; the Python string
operations used by the code (`str.split`, `str.strip`, slicing)
are defined below, faithful to CPython semantics.  Python `None`
becomes `Option`, exceptions become `Except String`/`Option`, and
the external services (OpenAI embeddings, Qdrant) are modelled as
oracle parameters.
-/

namespace Rag

/-- The characters Python's `str.strip()` removes (ASCII whitespace). -/
def pyWS (c : Char) : Bool :=
  c = ' ' || c = '\t' || c = '\n' || c = '\r' || c = '\x0b' || c = '\x0c'

/-- Python `s.lstrip()`. -/
def lstrip (s : List Char) : List Char := s.dropWhile pyWS

/-- Python `s.rstrip()`. -/
def rstrip (s : List Char) : List Char := (s.reverse.dropWhile pyWS).reverse

/-- Python `s.strip()`. -/
def pyStrip (s : List Char) : List Char := rstrip (lstrip s)

/-- Python `s.split(sep)` for a non-empty separator `sep`, with
structural fuel: splits at each leftmost non-overlapping occurrence of
`sep`; `"".split(sep) = [""]`.  Every recursive call consumes at least
one character, so fuel `s.length` (as used by `pySplit`) never runs
out; the fuel-exhausted branch is unreachable. -/
def pySplitF (sep : List Char) : Nat → List Char → List (List Char)
  | _, [] => [[]]
  | 0, s => [s]
  | fuel + 1, c :: s' =>
    if sep ≠ [] ∧ sep.isPrefixOf (c :: s') then
      [] :: pySplitF sep fuel ((c :: s').drop sep.length)
    else
      match pySplitF sep fuel s' with
      | [] => [[c]]
      | p :: ps => (c :: p) :: ps

/-- Python `s.split(sep)` for a non-empty separator `sep`. -/
def pySplit (sep : List Char) (s : List Char) : List (List Char) :=
  pySplitF sep s.length s

/-- Payload / metadata values (Python values stored in dicts are strings
or integers in this code base). -/
inductive Val where
  | str : List Char → Val
  | int : Int → Val
deriving DecidableEq, Repr

/-- `TextChunk` dataclass from `backend/rag/chunker.py`. -/
structure TextChunk where
  text : List Char
  chunk_index : Nat
  start_char : Nat
  end_char : Nat
  metadata : List (List Char × Val)
deriving DecidableEq, Repr

/-- The `TextChunker` configuration (`chunk_size`, `chunk_overlap`,
`separators`). -/
structure ChunkCfg where
  chunk_size : Nat
  chunk_overlap : Nat
  separators : List (List Char)

/-- The default separator list of `TextChunker.__init__`. -/
def defaultSeparators : List (List Char) :=
  ["\n\n".toList, "\n".toList, ". ".toList, "! ".toList, "? ".toList,
   "; ".toList, ", ".toList, " ".toList, []]

/-- The default configuration: `settings.rag_chunk_size = 1000`,
`settings.rag_chunk_overlap = 200` from `backend/config.py`. -/
def defaultCfg : ChunkCfg := ⟨1000, 200, defaultSeparators⟩

/-- Append `sep` to the last element of a list of segments
(`sub_splits[-1] = sub_splits[-1] + separator`). -/
def appendToLast (sep : List Char) : List (List Char) → List (List Char)
  | [] => []
  | [x] => [x ++ sep]
  | x :: y :: ys => x :: appendToLast sep (y :: ys)

/-- Process the pieces of one `str.split` call inside
`TextChunker._split_text`: skip empty pieces, keep pieces of length
`≤ cs` (reattaching `sep` to every piece but the last), and expand
oversized pieces with `f` (the recursive splitter over the remaining
separators), reattaching `sep` to the last sub-piece when the piece is
not the last. -/
def goPieces (cs : Nat) (sep : List Char) (f : List Char → List (List Char)) :
    List (List Char) → List (List Char)
  | [] => []
  | [p] =>
    if p = [] then []
    else if p.length ≤ cs then [p]
    else f p
  | p :: q :: ps =>
    (if p = [] then []
     else if p.length ≤ cs then [p ++ sep]
     else appendToLast sep (f p)) ++ goPieces cs sep f (q :: ps)

/-- `TextChunker._split_text`: recursively split `text` by the first
separator; keep pieces of length `≤ cs` (reattaching the separator to
every piece but the last), recurse on oversized pieces with the
remaining separators; with no separators left (or the empty separator)
split into single characters. -/
def splitText (cs : Nat) : List (List Char) → List Char → List (List Char)
  | [] => fun text => text.map (fun c => [c])
  | sep :: rest =>
    let f := splitText cs rest
    fun text =>
      if sep = [] then text.map (fun c => [c])
      else goPieces cs sep f (pySplit sep text)

/-- The mutable state of the packing loop in `TextChunker.chunk_text`:
the emitted chunks, `chunk_index`, `start_char`, `current_chunk`,
`current_length`, and the Python local `overlap_start`, which is unbound
(`none`) until first assigned — reading it while unbound raises
`UnboundLocalError`, modelled by the step function returning `none`. -/
structure ChunkState where
  chunks : List TextChunk
  chunkIndex : Nat
  startChar : Nat
  cur : List (List Char)
  curLen : Nat
  overlapStart : Option Nat
deriving Repr

def chunkInit : ChunkState := ⟨[], 0, 0, [], 0, none⟩

/-- One iteration of the `for split in splits` loop of
`TextChunker.chunk_text`. -/
def chunkStep (cfg : ChunkCfg) (md : List (List Char × Val))
    (st : ChunkState) (split : List Char) : Option ChunkState :=
  if cfg.chunk_size < st.curLen + split.length ∧ st.cur ≠ [] then
    let ctext := pyStrip st.cur.flatten
    if ctext = [] then
      match st.overlapStart with
      | none => none
      | some k =>
        -- `overlap_text = ""[k:]` is empty, so the new chunk starts empty
        -- and then the current split is appended.
        some { st with cur := [split], curLen := (ctext.drop k).length + split.length }
    else
      let k := ctext.length - cfg.chunk_overlap
      let otext := ctext.drop k
      some { chunks := st.chunks ++
               [⟨ctext, st.chunkIndex, st.startChar, st.startChar + ctext.length, md⟩],
             chunkIndex := st.chunkIndex + 1,
             startChar := st.startChar + k,
             cur := (if otext = [] then [] else [otext]) ++ [split],
             curLen := otext.length + split.length,
             overlapStart := some k }
  else
    some { st with cur := st.cur ++ [split], curLen := st.curLen + split.length }

/-- The final "don't forget the last chunk" block of
`TextChunker.chunk_text`. -/
def chunkFinal (md : List (List Char × Val)) (st : ChunkState) : List TextChunk :=
  if st.cur = [] then st.chunks
  else
    let ctext := pyStrip st.cur.flatten
    if ctext = [] then st.chunks
    else st.chunks ++
      [⟨ctext, st.chunkIndex, st.startChar, st.startChar + ctext.length, md⟩]

/-- `TextChunker.chunk_text`.  Returns `none` exactly when the Python
code raises `UnboundLocalError` (reading `overlap_start` before any
chunk was recorded). -/
def chunk_text (cfg : ChunkCfg) (text : List Char)
    (md : List (List Char × Val)) : Option (List TextChunk) :=
  if pyStrip text = [] then some []
  else do
    let st ← (splitText cfg.chunk_size cfg.separators text).foldlM (chunkStep cfg md) chunkInit
    pure (chunkFinal md st)

/-- The metadata dict built per page in
`TextChunker.chunk_document_pages`. -/
def baseMd (docId fname : List Char) (pageNum : Int) : List (List Char × Val) :=
  [("document_id".toList, Val.str docId),
   ("filename".toList, Val.str fname),
   ("page_number".toList, Val.int pageNum)]

/-- A page as consumed by `chunk_document_pages`
(`{"page_number": ..., "text": ...}`). -/
structure Page where
  page_number : Int
  text : List Char

/-- The `for chunk in chunks` renumbering loop of
`chunk_document_pages`: assign the running global index and record it in
the metadata. -/
def renumber (g : Nat) : List TextChunk → List TextChunk
  | [] => []
  | c :: rest =>
    { c with chunk_index := g,
             metadata := c.metadata ++ [("global_chunk_index".toList, Val.int g)] }
      :: renumber (g + 1) rest

/-- The page loop of `TextChunker.chunk_document_pages`, carrying the
running `global_chunk_index`. -/
def chunkPagesGo (cfg : ChunkCfg) (docId fname : List Char) :
    List Page → Nat → Option (List TextChunk)
  | [], _ => some []
  | p :: ps, g =>
    if pyStrip p.text = [] then chunkPagesGo cfg docId fname ps g
    else do
      let cs ← chunk_text cfg p.text (baseMd docId fname p.page_number)
      let rest ← chunkPagesGo cfg docId fname ps (g + cs.length)
      pure (renumber g cs ++ rest)

/-- `TextChunker.chunk_document_pages`. -/
def chunk_document_pages (cfg : ChunkCfg) (pages : List Page)
    (docId fname : List Char) : Option (List TextChunk) :=
  chunkPagesGo cfg docId fname pages 0

/-- `TextChunker.estimate_chunk_count`.  Note `chunk_size -
chunk_overlap` is Python integer subtraction; its value is `≤ 0` exactly
when the truncated subtraction below is `0`. -/
def estimate_chunk_count (cfg : ChunkCfg) (text : List Char) : Nat :=
  if text = [] then 0
  else
    let e := cfg.chunk_size - cfg.chunk_overlap
    if e = 0 then 1
    else max 1 ((text.length + e - 1) / e)

/-! ### Embedding service (`backend/rag/embeddings.py`) -/

/-- The external OpenAI embedding provider, as seen through
`client.embeddings.create`: a whole-batch call and a single-text call,
each either returning vectors or raising (`none`).  Vectors are modelled
as `List Int` (their numeric content is irrelevant to the pipeline). -/
structure Provider where
  batchRes : List (List Char) → Option (List (List Int))
  singleRes : List Char → Option (List Int)

/-- The `valid_indices` / `valid_texts` filtering loop of
`EmbeddingService.embed_texts`: keep `(index, text.strip())` for each
text with `text and text.strip()` truthy. -/
def validPairs (n : Nat) : List (List Char) → List (Nat × List Char)
  | [] => []
  | t :: ts => (if pyStrip t ≠ [] then [(n, pyStrip t)] else []) ++ validPairs (n + 1) ts

/-- `range(0, len(l), bs)` slicing into batches, for `bs ≥ 1`, with
structural fuel: every step consumes at least one element, so fuel
`l.length` (as used by `batchify`) never runs out. -/
def batchifyF (bs : Nat) : Nat → List α → List (List α)
  | _, [] => []
  | 0, l => [l]
  | fuel + 1, x :: xs => (x :: xs.take (bs - 1)) :: batchifyF bs fuel (xs.drop (bs - 1))

/-- `range(0, len(l), bs)` slicing into batches, for `bs ≥ 1`. -/
def batchify (bs : Nat) (l : List α) : List (List α) :=
  batchifyF bs l.length l

/-- The per-item fallback loop of `embed_texts`: embed each item of the
batch individually; an item that still fails gets the empty vector. -/
def retryBatch (P : Provider) (emb : List (List Int))
    (batch : List (Nat × List Char)) : List (List Int) :=
  batch.foldl (fun e it => e.set it.1 ((P.singleRes it.2).getD [])) emb

/-- One iteration of the batch loop of `embed_texts`.  On a successful
batch call, `embeddings[batch_indices[j]] = response.data[j].embedding`
for each `j`; if the response is longer than the batch this raises
`IndexError`, which the surrounding `except` turns into the per-item
retry (whose assignments overwrite all prior partial ones); a failed
batch call likewise falls back to the per-item retry. -/
def processBatch (P : Provider) (emb : List (List Int))
    (batch : List (Nat × List Char)) : List (List Int) :=
  match P.batchRes (batch.map Prod.snd) with
  | some vs =>
    if vs.length ≤ batch.length then
      (batch.zip vs).foldl (fun e iv => e.set iv.1.1 iv.2) emb
    else retryBatch P emb batch
  | none => retryBatch P emb batch

/-- `EmbeddingService.embed_texts`.  Returns `none` exactly when the
Python code raises: `range(0, n, 0)` with `batch_size = 0` raises
`ValueError` once there is at least one valid text. -/
def embed_texts (P : Provider) (texts : List (List Char))
    (batchSize : Nat) : Option (List (List Int)) :=
  if texts = [] then some []
  else
    let valid := validPairs 0 texts
    if valid = [] then some (texts.map fun _ => [])
    else if batchSize = 0 then none
    else some ((batchify batchSize valid).foldl (processBatch P) (texts.map fun _ => []))

/-! ### Qdrant vector store (`backend/rag/qdrant_client.py`)

The external Qdrant database is modelled as an association list from
collection names to lists of points, with the semantics the code relies
on: create-if-absent, upsert-by-id, filtered search, filtered delete.
Similarity scoring is an abstract oracle `score`. -/

structure QPoint where
  id : List Char
  vector : List Int
  payload : List (List Char × Val)
deriving DecidableEq, Repr

abbrev Store := List (List Char × List QPoint)

/-- First-match association-list lookup (Python dict access on
payloads). -/
def lookupVal (payload : List (List Char × Val)) (k : List Char) : Option Val :=
  match payload with
  | [] => none
  | kv :: rest => if kv.1 = k then some kv.2 else lookupVal rest k

/-- `QdrantManager.get_collection_name`:
`f"{self.collection_prefix}{user_id}_documents"`. -/
def get_collection_name (pfx userId : List Char) : List Char :=
  pfx ++ userId ++ "_documents".toList

/-- `QdrantManager.collection_exists`. -/
def collection_exists (s : Store) (name : List Char) : Bool :=
  s.any fun c => c.1 = name

/-- Points of a named collection. -/
def collPoints (s : Store) (name : List Char) : List QPoint :=
  match s.find? (fun c => c.1 = name) with
  | some c => c.2
  | none => []

/-- Replace the contents of a named collection. -/
def setColl (s : Store) (name : List Char) (pts : List QPoint) : Store :=
  s.map fun c => if c.1 = name then (c.1, pts) else c

/-- `QdrantManager.create_collection`: create the user's collection if
it does not exist; return its name. -/
def create_collection (pfx : List Char) (s : Store) (userId : List Char) :
    Store × List Char :=
  let name := get_collection_name pfx userId
  if collection_exists s name then (s, name) else (s ++ [(name, [])], name)

/-- Qdrant upsert semantics for a single point: insert, or replace the
point with the same id. -/
def upsertPoint (coll : List QPoint) (p : QPoint) : List QPoint :=
  coll.filter (fun q => q.id ≠ p.id) ++ [p]

/-- `QdrantManager.upsert_vectors`.  `supply` models `uuid.uuid4()`
generation when `ids` is not provided; `zip` truncates to the shortest
input as in Python. -/
def upsert_vectors (pfx : List Char) (supply : Nat → List Char) (s : Store)
    (userId : List Char) (vectors : List (List Int))
    (payloads : List (List (List Char × Val)))
    (ids : Option (List (List Char))) : Store × Nat :=
  let sn := create_collection pfx s userId
  let theIds := match ids with
    | some l => l
    | none => (List.range vectors.length).map supply
  let points := (theIds.zip (vectors.zip payloads)).map
    fun ivp => QPoint.mk ivp.1 ivp.2.1 ivp.2.2
  (setColl sn.1 sn.2 (points.foldl upsertPoint (collPoints sn.1 sn.2)), points.length)

/-- Conjunction of qdrant `FieldCondition` equality matches
(`models.Filter(must=...)`). -/
def matchesConds (conds : List (List Char × Val))
    (payload : List (List Char × Val)) : Bool :=
  conds.all fun kv => lookupVal payload kv.1 = some kv.2

structure Hit where
  id : List Char
  score : Int
  payload : List (List Char × Val)
deriving DecidableEq, Repr

/-- Insertion into a descending-by-score list. -/
def insertDesc (x : Hit) : List Hit → List Hit
  | [] => [x]
  | y :: ys => if y.score < x.score then x :: y :: ys else y :: insertDesc x ys

/-- Sort hits by descending score (Qdrant returns ranked hits). -/
def sortDesc (l : List Hit) : List Hit := l.foldr insertDesc []

/-- `QdrantManager.search`: empty result if the user's collection does
not exist; otherwise the hits with similarity at least
`score_threshold` matching the filter, ranked by descending score,
truncated to `limit`. -/
def search (pfx : List Char) (score : List Int → List Int → Int) (s : Store)
    (userId : List Char) (queryVector : List Int) (limit : Nat)
    (scoreThreshold : Int) (conds : Option (List (List Char × Val))) : List Hit :=
  let name := get_collection_name pfx userId
  if collection_exists s name then
    let hits := (collPoints s name).filterMap fun p =>
      let sc := score queryVector p.vector
      let condsOk := match conds with
        | none => true
        | some cs => matchesConds cs p.payload
      if scoreThreshold ≤ sc ∧ condsOk = true then
        some (Hit.mk p.id sc p.payload)
      else none
    (sortDesc hits).take limit
  else []

/-- `QdrantManager.delete_by_document`: no-op returning `0` when the
collection does not exist; otherwise remove every point whose payload
`document_id` equals the given id and return `1`. -/
def delete_by_document (pfx : List Char) (s : Store) (userId docId : List Char) :
    Store × Nat :=
  let name := get_collection_name pfx userId
  if collection_exists s name then
    (setColl s name ((collPoints s name).filter
       fun p => lookupVal p.payload "document_id".toList ≠ some (Val.str docId)), 1)
  else (s, 0)

/-! ### Ingestion pipeline (`backend/rag/ingestion.py`) -/

structure ParsedPage where
  page_number : Int
  text : List Char
deriving DecidableEq

structure ParsedDoc where
  pages : List ParsedPage
  total_pages : Nat
  metadata : List (List Char × Val)
deriving DecidableEq

structure IngestMeta where
  pdf_metadata : List (List Char × Val)
  embedding_model : List Char
  chunk_size : Nat
  chunk_overlap : Nat
deriving DecidableEq

/-- `IngestionResult` dataclass. -/
structure IngestionResult where
  success : Bool
  document_id : List Char
  filename : List Char
  chunks_created : Nat
  total_pages : Nat
  error : Option (List Char)
  metadata : Option IngestMeta
deriving DecidableEq

/-- Everything `ingest_pdf` obtains from the outside world on one call:
the PDF parser outcome for the given bytes, the outcome of the Qdrant
upsert network call, the generated uuid, the current timestamp, the
embedding model name, and the embedding provider.  An `Except.error`
carries `str(e)` of the raised exception. -/
structure IngestEnv where
  parse : Except (List Char) ParsedDoc
  upsertRes : Except (List Char) Unit
  uuid : List Char
  now : List Char
  model : List Char
  provider : Provider

def natToChars (n : Nat) : List Char := (toString n).toList

def intToChars (n : Int) : List Char := (toString n).toList

/-- The payload dict built per surviving chunk in `ingest_pdf`
(step 4); the `project_id` key is added only when `project_id` is
truthy. -/
def buildPayload (docId fname now : List Char) (projectId : Option Int)
    (c : TextChunk) : List (List Char × Val) :=
  [("document_id".toList, Val.str docId),
   ("filename".toList, Val.str fname),
   ("text".toList, Val.str c.text),
   ("chunk_index".toList, Val.int c.chunk_index),
   ("page_number".toList, (lookupVal c.metadata "page_number".toList).getD (Val.int 1)),
   ("start_char".toList, Val.int c.start_char),
   ("end_char".toList, Val.int c.end_char),
   ("ingested_at".toList, Val.str now)] ++
  (match projectId with
   | some p => if p = 0 then [] else [("project_id".toList, Val.int p)]
   | none => [])

/-- The message of the `UnboundLocalError` raised by
`TextChunker.chunk_text` on its degenerate whitespace path, as caught by
the `except Exception` of `ingest_pdf` (str(e), quotes elided). -/
def unboundLocalMsg : List Char :=
  "local variable overlap_start referenced before assignment".toList

/-- The upsert request `ingest_pdf` sends to
`QdrantManager.upsert_vectors`: the surviving embeddings, their
payloads, and the deterministic ids `f"{document_id}_{chunk_index}"`. -/
structure UpsertReq where
  vectors : List (List Int)
  payloads : List (List (List Char × Val))
  ids : List (List Char)
deriving DecidableEq

/-- `DocumentIngestionPipeline.ingest_pdf`: the full control flow, each
failure mode captured into the returned `IngestionResult`.  The second
component is the upsert request issued to the vector store (`none` when
the pipeline fails before the write); the outcome of that network call
is `env.upsertRes`.  Exceptions anywhere are caught at the pipeline
boundary (`except Exception as e`) and produce
`success=False, chunks_created=0, total_pages=0, error=str(e)`. -/
def ingest_pdf (cfg : ChunkCfg) (env : IngestEnv) (fname : List Char)
    (projectId : Option Int) (documentId : Option (List Char)) :
    IngestionResult × Option UpsertReq :=
  let docId := match documentId with
    | some d => if d = [] then env.uuid else d
    | none => env.uuid
  match env.parse with
  | .error e => (⟨false, docId, fname, 0, 0, some e, none⟩, none)
  | .ok doc =>
    if doc.pages = [] then
      (⟨false, docId, fname, 0, 0,
        some "No text could be extracted from the PDF".toList, none⟩, none)
    else
      let pagesData := doc.pages.map fun p => Page.mk p.page_number p.text
      match chunk_document_pages cfg pagesData docId fname with
      | none => (⟨false, docId, fname, 0, 0, some unboundLocalMsg, none⟩, none)
      | some chunks =>
        if chunks = [] then
          (⟨false, docId, fname, 0, doc.total_pages,
            some "No chunks could be created from the document".toList, none⟩, none)
        else
          match embed_texts env.provider (chunks.map (·.text)) 100 with
          | none => (⟨false, docId, fname, 0, 0,
                      some "range() arg 3 must not be zero".toList, none⟩, none)
          | some embeddings =>
            let pairs := (chunks.zip embeddings).filter fun cv => cv.2 ≠ []
            let validChunks := pairs.map Prod.fst
            if pairs = [] then
              (⟨false, docId, fname, 0, doc.total_pages,
                some "Failed to generate embeddings for document".toList, none⟩, none)
            else
              let req : UpsertReq :=
                ⟨pairs.map Prod.snd,
                 validChunks.map (buildPayload docId fname env.now projectId),
                 validChunks.map fun c => docId ++ "_".toList ++ natToChars c.chunk_index⟩
              match env.upsertRes with
              | .error e => (⟨false, docId, fname, 0, 0, some e, none⟩, some req)
              | .ok _ =>
                (⟨true, docId, fname, validChunks.length, doc.total_pages, none,
                  some ⟨doc.metadata, env.model, cfg.chunk_size, cfg.chunk_overlap⟩⟩,
                 some req)

/-- `DocumentIngestionPipeline.delete_document`: delegate to the
filtered delete and report `True`; the `except` branch (report `False`)
is unreachable in this pure store model, where `delete_by_document`
always returns. -/
def delete_document (pfx : List Char) (s : Store) (userId docId : List Char) :
    Store × Bool :=
  ((delete_by_document pfx s userId docId).1, true)

/-! ### Retriever (`backend/rag/retrieval.py`) -/

structure RetrievedChunk where
  text : List Char
  score : Int
  document_id : List Char
  filename : List Char
  page_number : Int
  chunk_index : Int
  metadata : List (List Char × Val)
deriving DecidableEq

structure Citation where
  index : Nat
  text : List Char
  source : List Char
  page : Int
  score : Int
deriving DecidableEq

/-- `RetrievalResult` dataclass.  Wall-clock latency is outside the
model; `latency_ms` is `0` throughout. -/
structure RetrievalResult where
  success : Bool
  chunks : List RetrievedChunk
  citations : List Citation
  context_text : List Char
  latency_ms : Nat
  error : Option (List Char)
deriving DecidableEq

/-- The retriever's collaborators and configuration: collection prefix,
similarity oracle and threshold, `top_k`, the current store contents,
the query-embedding call (which may raise, e.g. on an empty query), and
the store health check result. -/
structure RetrieverEnv where
  pfx : List Char
  score : List Int → List Int → Int
  scoreThreshold : Int
  top_k : Nat
  store : Store
  embedQuery : List Char → Except (List Char) (List Int)
  health : Bool

/-- Typed payload projections (`payload.get(key, default)`); payloads
written by this pipeline hold strings / ints at the accessed keys. -/
def payloadStr (payload : List (List Char × Val)) (k d : List Char) : List Char :=
  match lookupVal payload k with
  | some (Val.str s) => s
  | _ => d

def payloadInt (payload : List (List Char × Val)) (k : List Char) (d : Int) : Int :=
  match lookupVal payload k with
  | some (Val.int n) => n
  | _ => d

/-- `RAGRetriever._truncate_text`. -/
def truncate_text (t : List Char) (maxLength : Nat) : List Char :=
  if t.length ≤ maxLength then t else t.take (maxLength - 3) ++ "...".toList

/-- `"sep".join(parts)`. -/
def joinSep (sep : List Char) : List (List Char) → List Char
  | [] => []
  | [x] => x
  | x :: y :: ys => x ++ sep ++ joinSep sep (y :: ys)

/-- One block of `RAGRetriever._build_context_text`:
`f"[Source {i + 1}: {chunk.filename}, Page {chunk.page_number}]\n{chunk.text}"`. -/
def contextBlock (i : Nat) (c : RetrievedChunk) : List Char :=
  "[Source ".toList ++ natToChars (i + 1) ++ ": ".toList ++ c.filename ++
  ", Page ".toList ++ intToChars c.page_number ++ "]\n".toList ++ c.text

/-- `RAGRetriever._build_context_text`. -/
def build_context_text (chunks : List RetrievedChunk) : List Char :=
  if chunks = [] then []
  else joinSep "\n\n---\n\n".toList (chunks.enum.map fun ic => contextBlock ic.1 ic.2)

/-- `RAGRetriever.retrieve`: embed the query (an exception becomes a
failure result), build the optional equality filter from truthy
`project_id` / `document_id`, search, and map hits to chunks, 1-based
citations with 200-character truncated previews, and the context
text. -/
def retrieve (env : RetrieverEnv) (userId query : List Char)
    (projectId : Option Int) (documentId : Option (List Char))
    (topK : Option Nat) : RetrievalResult :=
  let k := match topK with
    | some n => if n = 0 then env.top_k else n
    | none => env.top_k
  match env.embedQuery query with
  | .error e => ⟨false, [], [], [], 0, some e⟩
  | .ok qv =>
    let conds :=
      (match projectId with
       | some p => if p = 0 then [] else [("project_id".toList, Val.int p)]
       | none => []) ++
      (match documentId with
       | some d => if d = [] then [] else [("document_id".toList, Val.str d)]
       | none => [])
    let results := search env.pfx env.score env.store userId qv k env.scoreThreshold
      (if conds = [] then none else some conds)
    let chunks := results.map fun h =>
      RetrievedChunk.mk (payloadStr h.payload "text".toList [])
        h.score
        (payloadStr h.payload "document_id".toList [])
        (payloadStr h.payload "filename".toList [])
        (payloadInt h.payload "page_number".toList 1)
        (payloadInt h.payload "chunk_index".toList 0)
        h.payload
    let citations := chunks.enum.map fun ic =>
      Citation.mk (ic.1 + 1) (truncate_text ic.2.text 200) ic.2.filename
        ic.2.page_number ic.2.score
    ⟨true, chunks, citations, build_context_text chunks, 0, none⟩

/-- `RAGRetriever.retrieve_with_fallback`: health-check short circuit,
then delegate to `retrieve`; total by construction (the Python `except`
wrapper never propagates an exception). -/
def retrieve_with_fallback (env : RetrieverEnv) (userId query : List Char)
    (projectId : Option Int) (documentId : Option (List Char))
    (topK : Option Nat) : RetrievalResult :=
  if env.health then retrieve env userId query projectId documentId topK
  else ⟨false, [], [], [], 0, some "RAG service unavailable".toList⟩

/-! ### The plain-prose input class of claim C2 and its witness input -/

/-- Characters of plain prose: letters and ` .,!?;`. -/
def proseChar (c : Char) : Bool :=
  c.isAlpha || c = ' ' || c = '.' || c = ',' || c = '!' || c = '?' || c = ';'

/-- Every maximal run of non-space characters has length at most `m`
(`k` is the length of the current run). -/
def runsBounded (m : Nat) : Nat → List Char → Bool
  | k, [] => decide (k ≤ m)
  | k, c :: s => if c = ' ' then decide (k ≤ m) && runsBounded m 0 s
                 else runsBounded m (k + 1) s

/-- A 2,500-character plain-prose input with no paragraph breaks: 2,500
characters of letters and ` .,!?;` (hence no newline at all, so no
paragraph break) with every space-separated word at most 20 characters
long. -/
def isPlainProse (t : List Char) : Prop :=
  t.length = 2500 ∧ t.all proseChar = true ∧ runsBounded 20 0 t = true

/-- A 1,000-character sentence of short words with no sentence-ending
punctuation inside. -/
def cexA : List Char :=
  (List.replicate 199 "word ".toList).flatten ++ "wordd".toList

/-- A 998-character sentence of the same shape. -/
def cexC : List Char :=
  (List.replicate 199 "word ".toList).flatten ++ "wor".toList

/-- A 498-character sentence of the same shape. -/
def cexD : List Char :=
  (List.replicate 99 "word ".toList).flatten ++ "abc".toList

/-- A concrete 2,500-character plain-prose input: three sentences of
1,000, 998 and 498 characters separated by `". "`. -/
def cexInput : List Char :=
  cexA ++ (". ".toList ++ (cexC ++ (". ".toList ++ cexD)))

/-! ## Lemmas about the Python string primitives -/

theorem dropWhile_head_false {α} {p : α → Bool} {s t : List α} {c : α}
    (h : s.dropWhile p = c :: t) : p c = false := by
  induction s with
  | nil => simp [List.dropWhile] at h
  | cons a s ih =>
    rw [List.dropWhile_cons] at h
    by_cases hp : p a
    · exact ih (by simpa [hp] using h)
    · obtain ⟨rfl, -⟩ := by simpa [hp] using h
      simpa using hp

theorem dropWhile_of_head_false {α} {p : α → Bool} {s : List α}
    (h : ∀ c, s.head? = some c → p c = false) : s.dropWhile p = s := by
  cases s with
  | nil => rfl
  | cons a t => simp [List.dropWhile_cons, h a rfl]

theorem lstrip_head_false {s t : List Char} {c : Char}
    (h : lstrip s = c :: t) : pyWS c = false :=
  dropWhile_head_false h

theorem lstrip_append {a b : List Char} (h : lstrip a ≠ []) :
    lstrip (a ++ b) = lstrip a ++ b := by
  unfold lstrip at *
  rw [List.dropWhile_append, if_neg]
  simp only [List.isEmpty_iff]
  exact h

theorem lstrip_suffix (s : List Char) : lstrip s <:+ s :=
  List.dropWhile_suffix pyWS

theorem lstrip_getLast? {s : List Char} (h : lstrip s ≠ []) :
    (lstrip s).getLast? = s.getLast? := by
  conv_rhs => rw [← List.takeWhile_append_dropWhile pyWS s]
  exact (List.getLast?_append_of_ne_nil _ h).symm

theorem rstrip_eq_reverse (s : List Char) :
    rstrip s = (s.reverse.dropWhile pyWS).reverse := rfl

theorem rstrip_getLast?_false {s : List Char} {c : Char}
    (h : (rstrip s).getLast? = some c) : pyWS c = false := by
  rw [rstrip_eq_reverse, List.getLast?_reverse] at h
  cases hd : s.reverse.dropWhile pyWS with
  | nil => rw [hd] at h; simp at h
  | cons x xs =>
    rw [hd] at h
    simp only [List.head?_cons, Option.some.injEq] at h
    subst h
    exact dropWhile_head_false hd

theorem rstrip_of_getLast?_false {s : List Char}
    (h : ∀ c, s.getLast? = some c → pyWS c = false) : rstrip s = s := by
  rw [rstrip_eq_reverse, dropWhile_of_head_false, List.reverse_reverse]
  intro c hc
  exact h c (by rwa [List.head?_reverse] at hc)

theorem lstrip_of_head_false {s : List Char}
    (h : ∀ c, s.head? = some c → pyWS c = false) : lstrip s = s :=
  dropWhile_of_head_false h

theorem rstrip_isPrefix (s : List Char) : rstrip s <+: s := by
  have h : (s.reverse.dropWhile pyWS).reverse <+: s.reverse.reverse :=
    List.reverse_prefix.mpr (List.dropWhile_suffix pyWS)
  rwa [List.reverse_reverse] at h

theorem rstrip_head? {s : List Char} (h : rstrip s ≠ []) :
    (rstrip s).head? = s.head? := by
  obtain ⟨t, ht⟩ := rstrip_isPrefix s
  conv_rhs => rw [← ht]
  exact (List.head?_append_of_ne_nil _ h).symm

/-- `rstrip` distributes over an append whose left part ends in a
non-whitespace character. -/
theorem rstrip_append {a b : List Char}
    (hw : ∀ c, a.getLast? = some c → pyWS c = false) (_ha : a ≠ []) :
    rstrip (a ++ b) = a ++ rstrip b := by
  have hrev : a.reverse.dropWhile pyWS = a.reverse := by
    apply dropWhile_of_head_false
    intro c hc
    exact hw c (by rwa [List.head?_reverse] at hc)
  rw [rstrip_eq_reverse, List.reverse_append, List.dropWhile_append]
  by_cases hb : (b.reverse.dropWhile pyWS).isEmpty
  · rw [if_pos hb, hrev, List.reverse_reverse]
    have : rstrip b = [] := by
      rw [rstrip_eq_reverse, List.isEmpty_iff.mp hb, List.reverse_nil]
    rw [this, List.append_nil]
  · rw [if_neg hb, List.reverse_append, List.reverse_reverse, rstrip_eq_reverse]

theorem pyStrip_eq (s : List Char) : pyStrip s = rstrip (lstrip s) := rfl

theorem pyStrip_getLast?_false {s : List Char} {c : Char}
    (h : (pyStrip s).getLast? = some c) : pyWS c = false :=
  rstrip_getLast?_false h

theorem pyStrip_head?_false {s : List Char} {c : Char}
    (h : (pyStrip s).head? = some c) : pyWS c = false := by
  have hne : pyStrip s ≠ [] := by intro hnil; rw [hnil] at h; simp at h
  rw [pyStrip_eq, rstrip_head? hne] at h
  cases hl : lstrip s with
  | nil => rw [pyStrip_eq, hl] at hne; simp [rstrip] at hne
  | cons x xs =>
    rw [hl] at h
    simp only [List.head?_cons, Option.some.injEq] at h
    subst h
    exact lstrip_head_false hl

theorem pyStrip_idem (s : List Char) : pyStrip (pyStrip s) = pyStrip s := by
  rw [pyStrip_eq (pyStrip s), lstrip_of_head_false, rstrip_of_getLast?_false]
  · intro c hc; exact pyStrip_getLast?_false hc
  · intro c hc; exact pyStrip_head?_false hc

theorem pyStrip_ne_nil_iff {s : List Char} :
    pyStrip s ≠ [] ↔ ∃ c ∈ s, pyWS c = false := by
  constructor
  · intro h
    by_contra hall
    push_neg at hall
    have h1 : lstrip s = [] := by
      rw [lstrip, List.dropWhile_eq_nil_iff]
      intro c hc
      have := hall c hc
      simpa using this
    exact h (by rw [pyStrip_eq, h1]; rfl)
  · rintro ⟨c, hc, hcw⟩ hnil
    have h1 : lstrip s ≠ [] := by
      rw [lstrip, Ne, List.dropWhile_eq_nil_iff]
      push_neg
      exact ⟨c, hc, by simp [hcw]⟩
    rw [pyStrip_eq, rstrip_eq_reverse, List.reverse_eq_nil_iff,
        List.dropWhile_eq_nil_iff] at hnil
    obtain ⟨d, hd⟩ := List.exists_mem_of_ne_nil _ h1
    -- the last element of `lstrip s` would have to be whitespace,
    -- but every element of `lstrip s` being whitespace contradicts
    -- its head being non-whitespace
    cases hl : lstrip s with
    | nil => exact h1 hl
    | cons x xs =>
      have hx : pyWS x = false := lstrip_head_false hl
      have : pyWS x = true := hnil x (by rw [hl]; simp)
      rw [hx] at this
      exact absurd this (by simp)

theorem pyStrip_length_le (s : List Char) : (pyStrip s).length ≤ s.length := by
  calc (pyStrip s).length ≤ (lstrip s).length :=
        (rstrip_isPrefix (lstrip s)).length_le
    _ ≤ s.length := (lstrip_suffix s).length_le

/-- The key decomposition used at chunk-close time: stripping
`overlap ++ rest` with a seed `o` that ends in a non-whitespace
character yields `lstrip o ++ rstrip rest`. -/
theorem pyStrip_seed {o r : List Char} (ho : o ≠ [])
    (hw : ∀ c, o.getLast? = some c → pyWS c = false) :
    pyStrip (o ++ r) = lstrip o ++ rstrip r ∧ lstrip o ≠ [] := by
  have hlast : ∃ c, o.getLast? = some c := by
    cases hc : o.getLast? with
    | none => exact absurd (by simpa using hc) ho
    | some c => exact ⟨c, rfl⟩
  obtain ⟨c, hc⟩ := hlast
  have hcw := hw c hc
  have h1 : lstrip o ≠ [] := by
    rw [lstrip, Ne, List.dropWhile_eq_nil_iff]
    push_neg
    refine ⟨c, ?_, by simp [hcw]⟩
    have := List.getLast?_eq_getLast o ho
    rw [this] at hc
    obtain rfl : o.getLast ho = c := by injection hc
    exact List.getLast_mem ho
  refine ⟨?_, h1⟩
  rw [pyStrip_eq, lstrip_append h1, rstrip_append _ h1]
  intro d hd
  rw [lstrip_getLast? h1, hc] at hd
  obtain rfl : c = d := by injection hd
  exact hcw

/-! ## Lemmas about `pySplit` -/

theorem pySplitF_irrel {sep : List Char} :
    ∀ (f₁ f₂ : Nat) (s : List Char), s.length ≤ f₁ → s.length ≤ f₂ →
      pySplitF sep f₁ s = pySplitF sep f₂ s := by
  intro f₁
  induction f₁ with
  | zero =>
    intro f₂ s h₁ _
    have : s = [] := List.eq_nil_of_length_eq_zero (by omega)
    subst this
    cases f₂ <;> rfl
  | succ f₁ ih =>
    intro f₂ s h₁ h₂
    cases s with
    | nil => cases f₂ <;> rfl
    | cons c s' =>
      cases f₂ with
      | zero => simp at h₂
      | succ f₂ =>
        simp only [pySplitF]
        by_cases hcond : sep ≠ [] ∧ sep.isPrefixOf (c :: s')
        · rw [if_pos hcond, if_pos hcond]
          have hsep : 1 ≤ sep.length := by
            cases sep with
            | nil => exact absurd rfl hcond.1
            | cons a l => simp
          have hd : ((c :: s').drop sep.length).length ≤ f₁ := by
            simp only [List.length_drop, List.length_cons]
            simp only [List.length_cons] at h₁
            omega
          have hd₂ : ((c :: s').drop sep.length).length ≤ f₂ := by
            simp only [List.length_drop, List.length_cons]
            simp only [List.length_cons] at h₂
            omega
          rw [ih f₂ _ hd hd₂]
        · rw [if_neg hcond, if_neg hcond]
          have hs' : s'.length ≤ f₁ := by simp only [List.length_cons] at h₁; omega
          have hs'₂ : s'.length ≤ f₂ := by simp only [List.length_cons] at h₂; omega
          rw [ih f₂ s' hs' hs'₂]

/-- Unfolding lemma for `pySplitF` at a `cons` with positive fuel. -/
theorem pySplitF_cons {sep : List Char} {fuel : Nat} (h : 0 < fuel)
    (c : Char) (s' : List Char) :
    pySplitF sep fuel (c :: s') =
      if sep ≠ [] ∧ sep.isPrefixOf (c :: s') then
        [] :: pySplitF sep (fuel - 1) ((c :: s').drop sep.length)
      else
        match pySplitF sep (fuel - 1) s' with
        | [] => [[c]]
        | p :: ps => (c :: p) :: ps := by
  obtain ⟨f, rfl⟩ : ∃ f, fuel = f + 1 := ⟨fuel - 1, by omega⟩
  simp only [pySplitF, Nat.add_sub_cancel]

/-- Python split of a string not containing the first character of the
(non-empty) separator: a single piece. -/
theorem pySplitF_not_occur {sep : List Char} {c0 : Char}
    (hc : sep.head? = some c0) :
    ∀ (fuel : Nat) (s : List Char), s.length ≤ fuel → c0 ∉ s →
      pySplitF sep fuel s = [s] := by
  intro fuel
  induction fuel with
  | zero =>
    intro s h₁ _
    have : s = [] := List.eq_nil_of_length_eq_zero (by omega)
    subst this
    rfl
  | succ fuel ih =>
    intro s h₁ hnot
    cases s with
    | nil => rfl
    | cons c s' =>
      have hpre : ¬ (sep ≠ [] ∧ sep.isPrefixOf (c :: s')) := by
        rintro ⟨-, hpre⟩
        cases sep with
        | nil => simp [List.head?] at hc
        | cons a t =>
          simp only [List.head?_cons, Option.some.injEq] at hc
          have hac : c0 = c := by
            obtain ⟨u, hu⟩ := List.isPrefixOf_iff_prefix.mp hpre
            simp only [List.cons_append, List.cons.injEq] at hu
            rw [← hc]
            exact hu.1
          exact hnot (hac ▸ List.mem_cons_self c s')
      simp only [pySplitF, if_neg hpre]
      have hs' : s'.length ≤ fuel := by simp only [List.length_cons] at h₁; omega
      rw [ih s' hs' (fun h => hnot (List.mem_cons_of_mem c h))]

theorem pySplit_not_occur {sep : List Char} {c0 : Char} {s : List Char}
    (hc : sep.head? = some c0) (hnot : c0 ∉ s) : pySplit sep s = [s] :=
  pySplitF_not_occur hc s.length s le_rfl hnot

/-- Python split at the leftmost separator occurrence: if the first
character of `sep` does not occur in `x`, splitting `x ++ sep ++ y`
yields `x` followed by the split of `y`. -/
theorem pySplit_boundary {sep : List Char} {c0 : Char}
    (hc : sep.head? = some c0) :
    ∀ (x y : List Char), c0 ∉ x →
      pySplit sep (x ++ (sep ++ y)) = x :: pySplit sep y := by
  have hsep : sep ≠ [] := by
    intro h
    rw [h] at hc
    simp at hc
  intro x
  induction x with
  | nil =>
    intro y _
    simp only [List.nil_append]
    cases sep with
    | nil => exact absurd rfl hsep
    | cons a t =>
      unfold pySplit
      rw [List.cons_append,
        pySplitF_cons (by simp) a (t ++ y)]
      rw [if_pos ⟨hsep, List.isPrefixOf_iff_prefix.mpr (by
        rw [← List.cons_append]; exact List.prefix_append _ _)⟩]
      congr 1
      rw [← List.cons_append, List.drop_left]
      apply pySplitF_irrel
      · simp only [List.length_cons, List.length_append]
        omega
      · exact le_rfl
  | cons a x' ih =>
    intro y hnot
    have ha : a ≠ c0 := fun h => hnot (h ▸ List.mem_cons_self a x')
    have hx' : c0 ∉ x' := fun h => hnot (List.mem_cons_of_mem a h)
    unfold pySplit
    rw [List.cons_append, pySplitF_cons (by simp) a (x' ++ (sep ++ y))]
    rw [if_neg ?hpre]
    case hpre =>
      rintro ⟨-, hpre⟩
      cases sep with
      | nil => exact absurd rfl hsep
      | cons b t =>
        simp only [List.head?_cons, Option.some.injEq] at hc
        obtain ⟨u, hu⟩ := List.isPrefixOf_iff_prefix.mp hpre
        simp only [List.cons_append, List.cons.injEq] at hu
        exact ha (by rw [← hu.1]; exact hc)
    have hrec : pySplitF sep ((a :: (x' ++ (sep ++ y))).length - 1) (x' ++ (sep ++ y)) =
        x' :: pySplit sep y := by
      rw [pySplitF_irrel _ (x' ++ (sep ++ y)).length _
        (by simp only [List.length_cons]; omega) le_rfl]
      exact ih y hx'
    rw [hrec]
    rfl

/-! ## Facts about the concrete plain-prose input `cexInput` -/

theorem flatten_replicate_length {α} (n : Nat) (l : List α) :
    ((List.replicate n l).flatten).length = n * l.length := by
  induction n with
  | zero => simp
  | succ n ih =>
    rw [List.replicate_succ, List.flatten_cons, List.length_append, ih]
    ring

theorem mem_flatten_replicate {α} {n : Nat} {l : List α} {c : α}
    (h : c ∈ (List.replicate n l).flatten) : c ∈ l := by
  rw [List.mem_flatten] at h
  obtain ⟨l', hl', hc⟩ := h
  rwa [List.eq_of_mem_replicate hl'] at hc

theorem cexA_length : cexA.length = 1000 := by
  rw [cexA, List.length_append, flatten_replicate_length]
  rfl

theorem cexC_length : cexC.length = 998 := by
  rw [cexC, List.length_append, flatten_replicate_length]
  rfl

theorem cexD_length : cexD.length = 498 := by
  rw [cexD, List.length_append, flatten_replicate_length]
  rfl

theorem cexInput_length : cexInput.length = 2500 := by
  rw [cexInput]
  simp only [List.length_append, cexA_length, cexC_length, cexD_length]
  rfl

theorem cexA_chars : ∀ c ∈ cexA, c ∈ "word ".toList := by
  intro c hc
  rcases List.mem_append.mp hc with h | h
  · exact mem_flatten_replicate h
  · fin_cases h <;> decide

theorem cexC_chars : ∀ c ∈ cexC, c ∈ "word ".toList := by
  intro c hc
  rcases List.mem_append.mp hc with h | h
  · exact mem_flatten_replicate h
  · fin_cases h <;> decide

theorem cexD_chars : ∀ c ∈ cexD, c ∈ "wordabc ".toList := by
  intro c hc
  rcases List.mem_append.mp hc with h | h
  · have := mem_flatten_replicate h
    fin_cases this <;> decide
  · fin_cases h <;> decide

theorem cexInput_chars : ∀ c ∈ cexInput, c ∈ "wordabc. ".toList := by
  intro c hc
  rw [cexInput] at hc
  simp only [List.mem_append] at hc
  rcases hc with h | h | h | h | h
  · have := cexA_chars c h; fin_cases this <;> decide
  · fin_cases h <;> decide
  · have := cexC_chars c h; fin_cases this <;> decide
  · fin_cases h <;> decide
  · have := cexD_chars c h; fin_cases this <;> decide

theorem cex_no_newline : ('\n' : Char) ∉ cexInput := by
  intro h
  exact absurd (cexInput_chars _ h) (by decide)

theorem cex_no_dot_A : ('.' : Char) ∉ cexA := by
  intro h
  exact absurd (cexA_chars _ h) (by decide)

theorem cex_no_dot_C : ('.' : Char) ∉ cexC := by
  intro h
  exact absurd (cexC_chars _ h) (by decide)

theorem cex_no_dot_D : ('.' : Char) ∉ cexD := by
  intro h
  exact absurd (cexD_chars _ h) (by decide)

theorem cexA_ne : cexA ≠ [] := by
  intro h
  have := congrArg List.length h
  rw [cexA_length] at this
  exact absurd this (by decide)

theorem cexC_ne : cexC ≠ [] := by
  intro h
  have := congrArg List.length h
  rw [cexC_length] at this
  exact absurd this (by decide)

theorem cexD_ne : cexD ≠ [] := by
  intro h
  have := congrArg List.length h
  rw [cexD_length] at this
  exact absurd this (by decide)

/-- Unfolding lemma for `splitText` at a `cons` separator list. -/
theorem splitText_cons {cs : Nat} {sep : List Char} {rest : List (List Char)}
    {text : List Char} :
    splitText cs (sep :: rest) text =
      if sep = [] then text.map (fun c => [c])
      else goPieces cs sep (splitText cs rest) (pySplit sep text) := rfl

/-- Unfolding lemma for `goPieces` on a singleton piece list. -/
theorem goPieces_single {cs : Nat} {sep : List Char}
    {f : List Char → List (List Char)} {p : List Char} :
    goPieces cs sep f [p] =
      if p = [] then [] else if p.length ≤ cs then [p] else f p := rfl

/-- Unfolding lemma for `goPieces` on two or more pieces. -/
theorem goPieces_pair {cs : Nat} {sep : List Char}
    {f : List Char → List (List Char)} {p q : List Char} {ps : List (List Char)} :
    goPieces cs sep f (p :: q :: ps) =
      (if p = [] then []
       else if p.length ≤ cs then [p ++ sep]
       else appendToLast sep (f p)) ++ goPieces cs sep f (q :: ps) := rfl

/-- The recursive splitter on `cexInput`: the paragraph and line levels
are single oversized pieces (no newline in the input), the sentence
level splits into the three sentences, each within `chunk_size`, so no
finer separator is ever consulted. -/
theorem cex_splits :
    splitText 1000 defaultSeparators cexInput =
      [cexA ++ ". ".toList, cexC ++ ". ".toList, cexD] := by
  have h1 : pySplit "\n\n".toList cexInput = [cexInput] :=
    pySplit_not_occur rfl cex_no_newline
  have h2 : pySplit "\n".toList cexInput = [cexInput] :=
    pySplit_not_occur rfl cex_no_newline
  have hlen : ¬ cexInput.length ≤ 1000 := by rw [cexInput_length]; omega
  have hne : cexInput ≠ [] := by
    intro h
    have := congrArg List.length h
    rw [cexInput_length] at this
    exact absurd this (by decide)
  have h3 : pySplit ". ".toList cexInput = [cexA, cexC, cexD] := by
    rw [cexInput,
        @pySplit_boundary ". ".toList '.' rfl cexA _ cex_no_dot_A,
        @pySplit_boundary ". ".toList '.' rfl cexC _ cex_no_dot_C,
        @pySplit_not_occur ". ".toList '.' cexD rfl cex_no_dot_D]
  show splitText 1000
    ("\n\n".toList :: "\n".toList :: ". ".toList :: "! ".toList :: "? ".toList ::
     "; ".toList :: ", ".toList :: " ".toList :: [[]]) cexInput = _
  rw [splitText_cons, if_neg (by decide), h1]
  rw [goPieces_single, if_neg hne, if_neg hlen]
  rw [splitText_cons, if_neg (by decide), h2]
  rw [goPieces_single, if_neg hne, if_neg hlen]
  rw [splitText_cons, if_neg (by decide), h3]
  rw [goPieces_pair, goPieces_pair, goPieces_single]
  rw [if_neg cexA_ne, if_pos (by rw [cexA_length]), if_neg cexC_ne,
      if_pos (by rw [cexC_length]; omega), if_neg cexD_ne,
      if_pos (by rw [cexD_length]; omega)]
  rfl

/-! ## Generic invariant lemma for `Option`-monadic folds -/

theorem foldlM_option_inv {σ α : Type} {f : σ → α → Option σ} {P : σ → Prop}
    (hf : ∀ s a s', P s → f s a = some s' → P s') :
    ∀ (l : List α) (s s' : σ), P s → l.foldlM f s = some s' → P s' := by
  intro l
  induction l with
  | nil =>
    intro s s' hP h
    rw [List.foldlM_nil] at h
    cases h
    exact hP
  | cons a l ih =>
    intro s s' hP h
    rw [List.foldlM_cons] at h
    obtain ⟨s1, h1, h2⟩ := Option.bind_eq_some.mp h
    exact ih s1 s' (hf s a s1 hP h1) h2

/-! ## Chunker lemmas -/

theorem renumber_length (g : Nat) (cs : List TextChunk) :
    (renumber g cs).length = cs.length := by
  induction cs generalizing g with
  | nil => rfl
  | cons c cs ih => simp [renumber, ih]

theorem renumber_map_index (g : Nat) (cs : List TextChunk) :
    (renumber g cs).map TextChunk.chunk_index = List.range' g cs.length := by
  induction cs generalizing g with
  | nil => rfl
  | cons c cs ih => simp [renumber, List.range'_succ, ih]

theorem renumber_mem_text {g : Nat} {cs : List TextChunk} {c : TextChunk}
    (h : c ∈ renumber g cs) : ∃ c0 ∈ cs, c.text = c0.text := by
  induction cs generalizing g with
  | nil => simp [renumber] at h
  | cons c0 cs ih =>
    simp only [renumber, List.mem_cons] at h
    rcases h with rfl | h
    · exact ⟨c0, by simp, rfl⟩
    · obtain ⟨c1, hc1, he⟩ := ih h
      exact ⟨c1, by simp [hc1], he⟩

theorem chunkPagesGo_indices (cfg : ChunkCfg) (d f : List Char) :
    ∀ (ps : List Page) (g : Nat) (cs : List TextChunk),
      chunkPagesGo cfg d f ps g = some cs →
      cs.map TextChunk.chunk_index = List.range' g cs.length := by
  intro ps
  induction ps with
  | nil =>
    intro g cs h
    simp only [chunkPagesGo] at h
    cases h
    rfl
  | cons p ps ih =>
    intro g cs h
    simp only [chunkPagesGo] at h
    split at h
    · exact ih g cs h
    · obtain ⟨cs0, h1, h2⟩ := Option.bind_eq_some.mp h
      obtain ⟨rest, h3, h4⟩ := Option.bind_eq_some.mp h2
      cases h4
      have hr := ih (g + cs0.length) rest h3
      rw [List.map_append, renumber_map_index, hr]
      have := List.range'_append g cs0.length rest.length 1
      simp only [one_mul] at this
      rw [List.length_append, renumber_length, this, Nat.add_comm rest.length]

/-- C6: chunk indices of `chunk_document_pages` form the contiguous
ascending sequence `0..N-1` across all pages (not reset per page), and
pages whose text is empty or whitespace-only contribute no chunks. -/
theorem C6_chunk_document_pages_indices (cfg : ChunkCfg) (d f : List Char) :
    (∀ (pages : List Page) (cs : List TextChunk),
        chunk_document_pages cfg pages d f = some cs →
        cs.map TextChunk.chunk_index = List.range cs.length) ∧
    (∀ (p : Page) (ps : List Page), pyStrip p.text = [] →
        chunk_document_pages cfg (p :: ps) d f = chunk_document_pages cfg ps d f) := by
  constructor
  · intro pages cs h
    rw [List.range_eq_range']
    exact chunkPagesGo_indices cfg d f pages 0 cs h
  · intro p ps hws
    simp [chunk_document_pages, chunkPagesGo, hws]

/-- Concrete instantiation of `C6_chunk_document_pages_indices`:
a two-page document (with a whitespace-only page in between) has
globally ascending chunk indices, and dropping the whitespace-only
page leaves the result unchanged. -/
theorem C6_chunk_document_pages_indices_witness :
    (List.map TextChunk.chunk_index ((chunk_document_pages ⟨10, 3, defaultSeparators⟩
        [⟨1, "aaaa bbbb cccc".toList⟩, ⟨2, "  ".toList⟩, ⟨3, "xx yy".toList⟩]
        "d".toList "f".toList).getD []) = List.range 3) ∧
    (chunk_document_pages ⟨10, 3, defaultSeparators⟩
        [⟨2, "  ".toList⟩, ⟨3, "xx yy".toList⟩] "d".toList "f".toList =
      chunk_document_pages ⟨10, 3, defaultSeparators⟩
        [⟨3, "xx yy".toList⟩] "d".toList "f".toList) := by
  constructor
  · have hlen : ((chunk_document_pages ⟨10, 3, defaultSeparators⟩
        [⟨1, "aaaa bbbb cccc".toList⟩, ⟨2, "  ".toList⟩, ⟨3, "xx yy".toList⟩]
        "d".toList "f".toList).getD []).length = 3 := by decide
    rw [← hlen]
    exact (C6_chunk_document_pages_indices ⟨10, 3, defaultSeparators⟩
      "d".toList "f".toList).1
      [⟨1, "aaaa bbbb cccc".toList⟩, ⟨2, "  ".toList⟩, ⟨3, "xx yy".toList⟩] _ (by decide)
  · exact (C6_chunk_document_pages_indices ⟨10, 3, defaultSeparators⟩
      "d".toList "f".toList).2 ⟨2, "  ".toList⟩ [⟨3, "xx yy".toList⟩] (by decide)

/-! Equation lemmas for the four cases of `chunkStep`. -/

theorem chunkStep_no_close {cfg : ChunkCfg} {md : List (List Char × Val)}
    {st : ChunkState} {a : List Char}
    (h : ¬(cfg.chunk_size < st.curLen + a.length ∧ st.cur ≠ [])) :
    chunkStep cfg md st a =
      some { st with cur := st.cur ++ [a], curLen := st.curLen + a.length } := by
  unfold chunkStep
  rw [if_neg h]

theorem chunkStep_close_empty_unbound {cfg : ChunkCfg} {md : List (List Char × Val)}
    {st : ChunkState} {a : List Char}
    (hcond : cfg.chunk_size < st.curLen + a.length ∧ st.cur ≠ [])
    (hct : pyStrip st.cur.flatten = []) (ho : st.overlapStart = none) :
    chunkStep cfg md st a = none := by
  unfold chunkStep
  rw [if_pos hcond]
  simp [hct, ho]

theorem chunkStep_close_empty {cfg : ChunkCfg} {md : List (List Char × Val)}
    {st : ChunkState} {a : List Char} {k : Nat}
    (hcond : cfg.chunk_size < st.curLen + a.length ∧ st.cur ≠ [])
    (hct : pyStrip st.cur.flatten = []) (ho : st.overlapStart = some k) :
    chunkStep cfg md st a = some { st with cur := [a], curLen := a.length } := by
  unfold chunkStep
  rw [if_pos hcond]
  simp [hct, ho]

theorem chunkStep_close {cfg : ChunkCfg} {md : List (List Char × Val)}
    {st : ChunkState} {a : List Char}
    (hcond : cfg.chunk_size < st.curLen + a.length ∧ st.cur ≠ [])
    (hct : pyStrip st.cur.flatten ≠ []) :
    chunkStep cfg md st a =
      some ⟨st.chunks ++ [⟨pyStrip st.cur.flatten, st.chunkIndex, st.startChar,
              st.startChar + (pyStrip st.cur.flatten).length, md⟩],
            st.chunkIndex + 1,
            st.startChar + ((pyStrip st.cur.flatten).length - cfg.chunk_overlap),
            (if (pyStrip st.cur.flatten).drop
                  ((pyStrip st.cur.flatten).length - cfg.chunk_overlap) = [] then []
             else [(pyStrip st.cur.flatten).drop
                  ((pyStrip st.cur.flatten).length - cfg.chunk_overlap)]) ++ [a],
            ((pyStrip st.cur.flatten).drop
              ((pyStrip st.cur.flatten).length - cfg.chunk_overlap)).length + a.length,
            some ((pyStrip st.cur.flatten).length - cfg.chunk_overlap)⟩ := by
  unfold chunkStep
  rw [if_pos hcond]
  simp [hct]

/-- The per-chunk invariant of the packing loop: every emitted chunk
has non-empty text that is its own `strip`. -/
def StrippedInv (st : ChunkState) : Prop :=
  ∀ c ∈ st.chunks, c.text ≠ [] ∧ pyStrip c.text = c.text

theorem chunkStep_stripped {cfg : ChunkCfg} {md : List (List Char × Val)}
    {st : ChunkState} {a : List Char} {st' : ChunkState}
    (hP : StrippedInv st) (h : chunkStep cfg md st a = some st') : StrippedInv st' := by
  by_cases hcond : cfg.chunk_size < st.curLen + a.length ∧ st.cur ≠ []
  · by_cases hct : pyStrip st.cur.flatten = []
    · cases ho : st.overlapStart with
      | none => rw [chunkStep_close_empty_unbound hcond hct ho] at h; cases h
      | some k =>
        rw [chunkStep_close_empty hcond hct ho] at h
        cases h
        exact hP
    · rw [chunkStep_close hcond hct] at h
      cases h
      intro c hc
      simp only [List.mem_append, List.mem_singleton] at hc
      rcases hc with hc | rfl
      · exact hP c hc
      · exact ⟨hct, pyStrip_idem _⟩
  · rw [chunkStep_no_close hcond] at h
    cases h
    exact hP

theorem chunkFinal_nil_cur {md : List (List Char × Val)} {st : ChunkState}
    (h : st.cur = []) : chunkFinal md st = st.chunks := by
  unfold chunkFinal
  rw [if_pos h]

theorem chunkFinal_empty {md : List (List Char × Val)} {st : ChunkState}
    (h : st.cur ≠ []) (hct : pyStrip st.cur.flatten = []) :
    chunkFinal md st = st.chunks := by
  unfold chunkFinal
  rw [if_neg h]
  simp [hct]

theorem chunkFinal_rec {md : List (List Char × Val)} {st : ChunkState}
    (h : st.cur ≠ []) (hct : pyStrip st.cur.flatten ≠ []) :
    chunkFinal md st = st.chunks ++
      [⟨pyStrip st.cur.flatten, st.chunkIndex, st.startChar,
        st.startChar + (pyStrip st.cur.flatten).length, md⟩] := by
  unfold chunkFinal
  rw [if_neg h]
  simp [hct]

theorem chunkFinal_stripped {md : List (List Char × Val)} {st : ChunkState}
    (hP : StrippedInv st) : ∀ c ∈ chunkFinal md st, c.text ≠ [] ∧ pyStrip c.text = c.text := by
  by_cases h : st.cur = []
  · rw [chunkFinal_nil_cur h]
    exact hP
  · by_cases hct : pyStrip st.cur.flatten = []
    · rw [chunkFinal_empty h hct]
      exact hP
    · rw [chunkFinal_rec h hct]
      intro c hc
      simp only [List.mem_append, List.mem_singleton] at hc
      rcases hc with hc | rfl
      · exact hP c hc
      · exact ⟨hct, pyStrip_idem _⟩

/-! ## The packing loop on `cexInput` -/

theorem cexS1_strip :
    pyStrip (cexA ++ ". ".toList) = cexA ++ ['.'] := by
  have hhead : (cexA ++ ". ".toList).head? = some 'w' := by
    rw [List.head?_append_of_ne_nil _ cexA_ne]
    rfl
  have hl : lstrip (cexA ++ ". ".toList) = cexA ++ ". ".toList := by
    apply lstrip_of_head_false
    intro c hc
    rw [hhead] at hc
    obtain rfl : 'w' = c := by injection hc
    decide
  have hassoc : cexA ++ ". ".toList = (cexA ++ ['.']) ++ [' '] := by
    rw [List.append_assoc]
    rfl
  rw [pyStrip_eq, hl, hassoc, rstrip_append ?hw (by simp)]
  case hw =>
    intro c hc
    rw [List.getLast?_concat] at hc
    obtain rfl : '.' = c := by injection hc
    decide
  have : rstrip [' '] = [] := rfl
  rw [this, List.append_nil]

theorem cexT1_length : (cexA ++ ['.']).length = 1001 := by
  rw [List.length_append, cexA_length]
  rfl

/-- The state after the first packing step: the first split is
accumulated into the empty current chunk. -/
theorem cex_step1 :
    chunkStep defaultCfg [] chunkInit (cexA ++ ". ".toList) =
      some ⟨[], 0, 0, [cexA ++ ". ".toList], (cexA ++ ". ".toList).length, none⟩ := by
  rw [chunkStep_no_close (by simp [chunkInit])]
  simp [chunkInit]

/-- The state after the second packing step: the first chunk — whose
1,001-character text exceeds `chunk_size = 1000` — is emitted, and the
new current chunk is seeded with the 200-character overlap. -/
theorem cex_step2 :
    chunkStep defaultCfg []
      ⟨[], 0, 0, [cexA ++ ". ".toList], (cexA ++ ". ".toList).length, none⟩
      (cexC ++ ". ".toList) =
      some ⟨[⟨cexA ++ ['.'], 0, 0, 1001, []⟩], 1, 801,
            [(cexA ++ ['.']).drop 801, cexC ++ ". ".toList], 1200, some 801⟩ := by
  have hs1len : (cexA ++ ". ".toList).length = 1002 := by
    rw [List.length_append, cexA_length]
    rfl
  have hs2len : (cexC ++ ". ".toList).length = 1000 := by
    rw [List.length_append, cexC_length]
    rfl
  have hstrip : pyStrip (⟨[], 0, 0, [cexA ++ ". ".toList],
      (cexA ++ ". ".toList).length, none⟩ : ChunkState).cur.flatten =
      cexA ++ ['.'] := by
    have h1 : (⟨[], 0, 0, [cexA ++ ". ".toList],
        (cexA ++ ". ".toList).length, none⟩ : ChunkState).cur.flatten =
        cexA ++ ". ".toList := by
      rw [show (⟨[], 0, 0, [cexA ++ ". ".toList],
        (cexA ++ ". ".toList).length, none⟩ : ChunkState).cur =
        [cexA ++ ". ".toList] from rfl,
        List.flatten_cons, List.flatten_nil, List.append_nil]
    rw [h1, cexS1_strip]
  have hcond : defaultCfg.chunk_size <
      (⟨[], 0, 0, [cexA ++ ". ".toList], (cexA ++ ". ".toList).length, none⟩ :
        ChunkState).curLen + (cexC ++ ". ".toList).length ∧
      (⟨[], 0, 0, [cexA ++ ". ".toList], (cexA ++ ". ".toList).length, none⟩ :
        ChunkState).cur ≠ [] := by
    constructor
    · rw [show (⟨[], 0, 0, [cexA ++ ". ".toList],
        (cexA ++ ". ".toList).length, none⟩ : ChunkState).curLen =
        (cexA ++ ". ".toList).length from rfl, hs1len, hs2len]
      decide
    · rw [show (⟨[], 0, 0, [cexA ++ ". ".toList],
        (cexA ++ ". ".toList).length, none⟩ : ChunkState).cur =
        [cexA ++ ". ".toList] from rfl]
      simp
  have hct : pyStrip (⟨[], 0, 0, [cexA ++ ". ".toList],
      (cexA ++ ". ".toList).length, none⟩ : ChunkState).cur.flatten ≠ [] := by
    rw [hstrip]
    simp
  rw [chunkStep_close hcond hct, hstrip, cexT1_length]
  rw [show defaultCfg.chunk_overlap = 200 from rfl]
  rw [show (1001 : Nat) - 200 = 801 from by norm_num]
  have hdropne : ¬ (cexA ++ ['.']).drop 801 = [] := by
    intro h
    have h2 := congrArg List.length h
    rw [List.length_drop, cexT1_length] at h2
    exact absurd h2 (by decide)
  rw [if_neg hdropne]
  rw [show (⟨[], 0, 0, [cexA ++ ". ".toList],
      (cexA ++ ". ".toList).length, none⟩ : ChunkState).chunks = [] from rfl,
    show (⟨[], 0, 0, [cexA ++ ". ".toList],
      (cexA ++ ". ".toList).length, none⟩ : ChunkState).chunkIndex = 0 from rfl,
    show (⟨[], 0, 0, [cexA ++ ". ".toList],
      (cexA ++ ". ".toList).length, none⟩ : ChunkState).startChar = 0 from rfl]
  rw [List.length_drop, cexT1_length, hs2len]
  rw [show (1001 : Nat) - 801 = 200 from by norm_num]
  rfl

/-- The state after the third packing step: a second chunk is emitted
(its text is irrelevant here). -/
theorem cex_step3 :
    ∃ st : ChunkState,
      chunkStep defaultCfg []
        ⟨[⟨cexA ++ ['.'], 0, 0, 1001, []⟩], 1, 801,
         [(cexA ++ ['.']).drop 801, cexC ++ ". ".toList], 1200, some 801⟩ cexD =
        some st ∧
      ⟨cexA ++ ['.'], 0, 0, 1001, []⟩ ∈ st.chunks := by
  have hcond : defaultCfg.chunk_size <
      (⟨[⟨cexA ++ ['.'], 0, 0, 1001, []⟩], 1, 801,
        [(cexA ++ ['.']).drop 801, cexC ++ ". ".toList], 1200, some 801⟩ :
          ChunkState).curLen + cexD.length ∧
      (⟨[⟨cexA ++ ['.'], 0, 0, 1001, []⟩], 1, 801,
        [(cexA ++ ['.']).drop 801, cexC ++ ". ".toList], 1200, some 801⟩ :
          ChunkState).cur ≠ [] := by
    constructor
    · rw [show (⟨[⟨cexA ++ ['.'], 0, 0, 1001, []⟩], 1, 801,
        [(cexA ++ ['.']).drop 801, cexC ++ ". ".toList], 1200, some 801⟩ :
          ChunkState).curLen = 1200 from rfl, cexD_length]
      decide
    · intro h
      have h2 := congrArg List.length h
      rw [show (⟨[⟨cexA ++ ['.'], 0, 0, 1001, []⟩], 1, 801,
        [(cexA ++ ['.']).drop 801, cexC ++ ". ".toList], 1200, some 801⟩ :
          ChunkState).cur = [(cexA ++ ['.']).drop 801, cexC ++ ". ".toList]
        from rfl] at h2
      exact absurd h2 (by decide)
  have hct : pyStrip (⟨[⟨cexA ++ ['.'], 0, 0, 1001, []⟩], 1, 801,
      [(cexA ++ ['.']).drop 801, cexC ++ ". ".toList], 1200, some 801⟩ :
        ChunkState).cur.flatten ≠ [] := by
    rw [show (⟨[⟨cexA ++ ['.'], 0, 0, 1001, []⟩], 1, 801,
      [(cexA ++ ['.']).drop 801, cexC ++ ". ".toList], 1200, some 801⟩ :
        ChunkState).cur = [(cexA ++ ['.']).drop 801, cexC ++ ". ".toList]
      from rfl]
    have hw : 'w' ∈ ([(cexA ++ ['.']).drop 801, cexC ++ ". ".toList] :
        List (List Char)).flatten := by
      rw [List.mem_flatten]
      refine ⟨cexC ++ ". ".toList, by simp, List.mem_append_left _ ?_⟩
      rw [cexC]
      exact List.mem_append_left _ (List.mem_flatten.mpr ⟨"word ".toList,
        List.mem_replicate.mpr ⟨by decide, rfl⟩, by decide⟩)
    exact pyStrip_ne_nil_iff.mpr ⟨'w', hw, by decide⟩
  refine ⟨_, chunkStep_close hcond hct, ?_⟩
  rw [show (⟨(⟨[⟨cexA ++ ['.'], 0, 0, 1001, []⟩], 1, 801,
      [(cexA ++ ['.']).drop 801, cexC ++ ". ".toList], 1200, some 801⟩ :
        ChunkState).chunks ++ _, _, _, _, _, _⟩ : ChunkState).chunks =
      (⟨[⟨cexA ++ ['.'], 0, 0, 1001, []⟩], 1, 801,
      [(cexA ++ ['.']).drop 801, cexC ++ ". ".toList], 1200, some 801⟩ :
        ChunkState).chunks ++ _ from rfl]
  exact List.mem_append_left _ (List.mem_cons_self _ _)

/-- Membership in the emitted chunks is preserved by the final
flush. -/
theorem chunkFinal_mem {md : List (List Char × Val)} {st : ChunkState}
    {c : TextChunk} (h : c ∈ st.chunks) : c ∈ chunkFinal md st := by
  by_cases h1 : st.cur = []
  · rwa [chunkFinal_nil_cur h1]
  · by_cases h2 : pyStrip st.cur.flatten = []
    · rwa [chunkFinal_empty h1 h2]
    · rw [chunkFinal_rec h1 h2]
      exact List.mem_append_left _ h

/-- One successful step of an `Option`-monadic fold. -/
theorem foldlM_step {σ α : Type} {f : σ → α → Option σ} {b b' : σ} {a : α}
    {l : List α} (h : f b a = some b') :
    List.foldlM f b (a :: l) = List.foldlM f b' l := by
  rw [List.foldlM_cons, h]
  rfl

/-- `chunk_text` on `cexInput` succeeds, and its output contains a
1,001-character chunk. -/
theorem cex_trace :
    ∃ cs, chunk_text defaultCfg cexInput [] = some cs ∧
      ⟨cexA ++ ['.'], 0, 0, 1001, []⟩ ∈ cs := by
  have hguard : ¬ pyStrip cexInput = [] := by
    rw [← Ne, pyStrip_ne_nil_iff]
    refine ⟨'w', ?_, by decide⟩
    rw [cexInput]
    apply List.mem_append_left
    rw [cexA]
    apply List.mem_append_left
    exact List.mem_flatten.mpr ⟨"word ".toList,
      List.mem_replicate.mpr ⟨by decide, rfl⟩, by decide⟩
  obtain ⟨st3, hst3, hmem⟩ := cex_step3
  refine ⟨chunkFinal [] st3, ?_, chunkFinal_mem hmem⟩
  unfold chunk_text
  rw [if_neg hguard]
  have hsplits : splitText defaultCfg.chunk_size defaultCfg.separators cexInput =
      [cexA ++ ". ".toList, cexC ++ ". ".toList, cexD] := cex_splits
  rw [hsplits]
  rw [foldlM_step cex_step1, foldlM_step cex_step2, foldlM_step hst3]
  rfl

/-! ## `cexInput` is plain prose -/

theorem runsBounded_word (rest : List Char) :
    runsBounded 20 0 ("word ".toList ++ rest) = runsBounded 20 0 rest := rfl

theorem runsBounded_flatten_word (n : Nat) (rest : List Char) :
    runsBounded 20 0 ((List.replicate n "word ".toList).flatten ++ rest) =
      runsBounded 20 0 rest := by
  induction n with
  | zero => simp
  | succ n ih =>
    rw [List.replicate_succ, List.flatten_cons, List.append_assoc,
        runsBounded_word, ih]

theorem append_wordd (y : List Char) :
    "wordd".toList ++ (". ".toList ++ y) = "wordd. ".toList ++ y := rfl

theorem runsBounded_wordd (rest : List Char) :
    runsBounded 20 0 ("wordd. ".toList ++ rest) = runsBounded 20 0 rest := rfl

theorem append_wor (y : List Char) :
    "wor".toList ++ (". ".toList ++ y) = "wor. ".toList ++ y := rfl

theorem runsBounded_wor (rest : List Char) :
    runsBounded 20 0 ("wor. ".toList ++ rest) = runsBounded 20 0 rest := rfl

theorem cex_prose : isPlainProse cexInput := by
  refine ⟨cexInput_length, ?_, ?_⟩
  · rw [List.all_eq_true]
    intro c hc
    have := cexInput_chars c hc
    fin_cases this <;> decide
  · rw [cexInput, cexA, List.append_assoc, runsBounded_flatten_word,
        append_wordd, runsBounded_wordd, cexC, List.append_assoc,
        runsBounded_flatten_word, append_wor, runsBounded_wor, cexD,
        runsBounded_flatten_word]
    decide

/-! ## Size bound on the recursive splitter -/

/-- Total length of all separator strings. -/
def sepsTotal (seps : List (List Char)) : Nat := (seps.map List.length).sum

theorem appendToLast_bound {sep : List Char} {l : List (List Char)} {p : List Char}
    (hp : p ∈ appendToLast sep l) : ∃ q ∈ l, p.length ≤ q.length + sep.length := by
  induction l with
  | nil => simp [appendToLast] at hp
  | cons x xs ih =>
    cases xs with
    | nil =>
      simp only [appendToLast, List.mem_singleton] at hp
      subst hp
      exact ⟨x, by simp, by simp⟩
    | cons y ys =>
      simp only [appendToLast, List.mem_cons] at hp
      rcases hp with rfl | hp
      · exact ⟨p, by simp, by omega⟩
      · obtain ⟨q, hq, hle⟩ := ih hp
        exact ⟨q, List.mem_cons_of_mem _ hq, hle⟩

theorem goPieces_bound {cs B : Nat} {sep : List Char}
    {f : List Char → List (List Char)} (hcs : cs ≤ B)
    (hf : ∀ p, ∀ q ∈ f p, q.length ≤ B) :
    ∀ pieces, ∀ p ∈ goPieces cs sep f pieces, p.length ≤ B + sep.length := by
  intro pieces
  induction pieces with
  | nil => simp [goPieces]
  | cons x xs ih =>
    cases xs with
    | nil =>
      intro p hp
      rw [goPieces_single] at hp
      split at hp
      · simp at hp
      · split at hp
        · simp only [List.mem_singleton] at hp
          subst hp
          omega
        · have := hf x p hp
          omega
    | cons y ys =>
      intro p hp
      rw [goPieces_pair] at hp
      rcases List.mem_append.mp hp with hp | hp
      · split at hp
        · simp at hp
        · split at hp
          · simp only [List.mem_singleton] at hp
            subst hp
            rw [List.length_append]
            omega
          · obtain ⟨q, hq, hle⟩ := appendToLast_bound hp
            have := hf x q hq
            omega
      · exact ih p hp

theorem splitText_bound {cs : Nat} (hcs : 1 ≤ cs) :
    ∀ (seps : List (List Char)) (t : List Char),
      ∀ p ∈ splitText cs seps t, p.length ≤ cs + sepsTotal seps := by
  intro seps
  induction seps with
  | nil =>
    intro t p hp
    simp only [splitText, List.mem_map] at hp
    obtain ⟨c, -, rfl⟩ := hp
    simpa [sepsTotal] using hcs
  | cons sep rest ih =>
    intro t p hp
    rw [splitText_cons] at hp
    split at hp
    · simp only [List.mem_map] at hp
      obtain ⟨c, -, rfl⟩ := hp
      have : (1 : Nat) ≤ cs + sepsTotal (sep :: rest) := by omega
      simpa using this
    · have hb := @goPieces_bound _ (cs + sepsTotal rest) _ _
        (by omega) (fun q r hr => ih q r hr) _ p hp
      simp only [sepsTotal, List.map_cons, List.sum_cons] at hb ⊢
      omega

/-! ## The packing-loop invariant: chunk size bound and overlap chain -/

/-- The overlap relation between consecutive chunks: the successor
begins with a non-empty suffix of its predecessor of length at most
`ov`. -/
def chainRel (ov : Nat) (a b : TextChunk) : Prop :=
  ∃ s, s ≠ [] ∧ s.length ≤ ov ∧ s <:+ a.text ∧ s <+: b.text

theorem getLast?_drop_of_ne_nil {l : List Char} {k : Nat} (h : l.drop k ≠ []) :
    (l.drop k).getLast? = l.getLast? := by
  rw [List.getLast?_eq_head?_reverse, List.reverse_drop, List.head?_take,
      if_neg, ← List.getLast?_eq_head?_reverse]
  intro hz
  exact h (List.eq_nil_of_length_eq_zero (by rw [List.length_drop]; exact hz))

/-- The invariant maintained by `chunkStep`: `current_length` tracks
the current chunk text, stays bounded by `M`, every emitted chunk is
non-empty, stripped and bounded by `M`, consecutive chunks overlap, and
once a chunk has been emitted the current accumulation starts with the
overlap suffix of the last emitted chunk. -/
def ChunkInv (cfg : ChunkCfg) (M : Nat) (st : ChunkState) : Prop :=
  st.curLen = st.cur.flatten.length ∧
  st.curLen ≤ M ∧
  (∀ c ∈ st.chunks, c.text ≠ [] ∧ pyStrip c.text = c.text ∧ c.text.length ≤ M) ∧
  List.Chain' (chainRel cfg.chunk_overlap) st.chunks ∧
  (∀ c, st.chunks.getLast? = some c →
     ∃ r, st.cur.flatten = c.text.drop (c.text.length - cfg.chunk_overlap) ++ r)

/-- The overlap seed taken from an emitted chunk is non-empty and ends
in a non-whitespace character. -/
theorem seed_facts {cfg : ChunkCfg} {M : Nat} (hov : 0 < cfg.chunk_overlap)
    {c : TextChunk} (hc : c.text ≠ [] ∧ pyStrip c.text = c.text ∧ c.text.length ≤ M) :
    c.text.drop (c.text.length - cfg.chunk_overlap) ≠ [] ∧
    (∀ d, (c.text.drop (c.text.length - cfg.chunk_overlap)).getLast? = some d →
      pyWS d = false) ∧
    (c.text.drop (c.text.length - cfg.chunk_overlap)).length ≤ cfg.chunk_overlap := by
  obtain ⟨hne, hstrip, -⟩ := hc
  have hpos : 0 < c.text.length := List.length_pos.mpr hne
  have hdne : c.text.drop (c.text.length - cfg.chunk_overlap) ≠ [] := by
    intro h
    have := congrArg List.length h
    rw [List.length_drop] at this
    simp only [List.length_nil] at this
    omega
  refine ⟨hdne, ?_, by rw [List.length_drop]; omega⟩
  intro d hd
  rw [getLast?_drop_of_ne_nil hdne] at hd
  rw [← hstrip] at hd
  exact pyStrip_getLast?_false hd

/-- Core argument at chunk-emission time: if the accumulation starts
with the overlap seed of chunk `x`, its stripped text is non-empty,
keeps a non-empty suffix of `x` (of length at most the overlap) as a
prefix. -/
theorem close_link {cfg : ChunkCfg} {M : Nat} (hov : 0 < cfg.chunk_overlap)
    {x : TextChunk} (hx : x.text ≠ [] ∧ pyStrip x.text = x.text ∧ x.text.length ≤ M)
    {r fl : List Char}
    (hfl : fl = x.text.drop (x.text.length - cfg.chunk_overlap) ++ r) :
    pyStrip fl ≠ [] ∧
    ∃ s, s ≠ [] ∧ s.length ≤ cfg.chunk_overlap ∧ s <:+ x.text ∧ s <+: pyStrip fl := by
  obtain ⟨hone, holast, holen⟩ := @seed_facts _ M hov _ hx
  obtain ⟨hsplit, hlne⟩ := @pyStrip_seed _ r hone holast
  rw [hfl, hsplit]
  refine ⟨by simp [hlne], lstrip (x.text.drop (x.text.length - cfg.chunk_overlap)),
    hlne, ?_, ?_, List.prefix_append _ _⟩
  · calc (lstrip (x.text.drop (x.text.length - cfg.chunk_overlap))).length
        ≤ (x.text.drop (x.text.length - cfg.chunk_overlap)).length :=
          (lstrip_suffix _).length_le
      _ ≤ cfg.chunk_overlap := holen
  · exact (lstrip_suffix _).trans (List.drop_suffix _ _)

theorem chunkInv_step {cfg : ChunkCfg} {md : List (List Char × Val)} {B M : Nat}
    {st : ChunkState} {a : List Char} {st' : ChunkState}
    (hov : 0 < cfg.chunk_overlap)
    (hM : M = max cfg.chunk_size (cfg.chunk_overlap + B))
    (ha : a.length ≤ B)
    (hinv : ChunkInv cfg M st)
    (h : chunkStep cfg md st a = some st') : ChunkInv cfg M st' := by
  obtain ⟨hlen, hbound, hchunks, hchain, hseed⟩ := hinv
  by_cases hcond : cfg.chunk_size < st.curLen + a.length ∧ st.cur ≠ []
  · by_cases hct : pyStrip st.cur.flatten = []
    · -- degenerate close of an all-whitespace accumulation; only
      -- reachable before any chunk has been emitted
      have hnil : st.chunks = [] := by
        cases hL : st.chunks.getLast? with
        | none =>
          cases hch : st.chunks with
          | nil => rfl
          | cons z zs =>
            rw [hch, List.getLast?_eq_getLast _ (by simp)] at hL
            cases hL
        | some c =>
          exfalso
          obtain ⟨r, hr⟩ := hseed c hL
          have hcmem : c ∈ st.chunks := by
            have hne : st.chunks ≠ [] := by
              intro hh
              rw [hh] at hL
              cases hL
            rw [List.getLast?_eq_getLast _ hne] at hL
            obtain rfl : st.chunks.getLast hne = c := by injection hL
            exact List.getLast_mem hne
          have hlink := close_link hov (hchunks c hcmem) hr
          exact hlink.1 hct
      cases ho : st.overlapStart with
      | none =>
        rw [chunkStep_close_empty_unbound hcond hct ho] at h
        cases h
      | some k =>
        rw [chunkStep_close_empty hcond hct ho] at h
        cases h
        refine ⟨by simp, ?_, hchunks, hchain, ?_⟩
        · show a.length ≤ M
          omega
        · intro c hc
          rw [hnil] at hc
          cases hc
    · rw [chunkStep_close hcond hct] at h
      cases h
      have hTne : pyStrip st.cur.flatten ≠ [] := hct
      have hTlen : (pyStrip st.cur.flatten).length ≤ M := by
        calc (pyStrip st.cur.flatten).length ≤ st.cur.flatten.length :=
            pyStrip_length_le _
          _ = st.curLen := hlen.symm
          _ ≤ M := hbound
      have hN : pyStrip st.cur.flatten ≠ [] ∧
          pyStrip (pyStrip st.cur.flatten) = pyStrip st.cur.flatten ∧
          (pyStrip st.cur.flatten).length ≤ M := ⟨hTne, pyStrip_idem _, hTlen⟩
      obtain ⟨hone, holast, holen⟩ := @seed_facts _ M hov
        ⟨pyStrip st.cur.flatten, st.chunkIndex, st.startChar,
          st.startChar + (pyStrip st.cur.flatten).length, md⟩ hN
      refine ⟨?_, ?_, ?_, ?_, ?_⟩
      · rw [if_neg hone]
        simp
      · simp only []
        have : (List.drop ((pyStrip st.cur.flatten).length - cfg.chunk_overlap)
            (pyStrip st.cur.flatten)).length ≤ cfg.chunk_overlap := holen
        omega
      · intro c hc
        rcases List.mem_append.mp hc with hc | hc
        · exact hchunks c hc
        · rw [List.mem_singleton] at hc
          subst hc
          exact hN
      · rw [List.chain'_append]
        refine ⟨hchain, List.chain'_singleton _, ?_⟩
        intro x hx y hy
        simp only [List.head?_cons, Option.mem_def, Option.some.injEq] at hy
        subst hy
        obtain ⟨r, hr⟩ := hseed x hx
        have hxmem : x ∈ st.chunks := by
          have hne : st.chunks ≠ [] := by
            intro hh
            rw [hh] at hx
            cases hx
          rw [Option.mem_def, List.getLast?_eq_getLast _ hne] at hx
          obtain rfl : st.chunks.getLast hne = x := by injection hx
          exact List.getLast_mem hne
        obtain ⟨-, s, hs1, hs2, hs3, hs4⟩ := close_link hov (hchunks x hxmem) hr
        exact ⟨s, hs1, hs2, hs3, hs4⟩
      · intro c hc
        rw [List.getLast?_concat] at hc
        obtain rfl : (⟨pyStrip st.cur.flatten, st.chunkIndex, st.startChar,
            st.startChar + (pyStrip st.cur.flatten).length, md⟩ : TextChunk) = c := by
          injection hc
        refine ⟨a, ?_⟩
        rw [if_neg hone]
        simp
  · rw [chunkStep_no_close hcond] at h
    cases h
    push_neg at hcond
    refine ⟨?_, ?_, hchunks, hchain, ?_⟩
    · simp only [List.flatten_append, List.flatten_cons, List.flatten_nil,
        List.append_nil, List.length_append]
      omega
    · show st.curLen + a.length ≤ M
      by_cases hlt : cfg.chunk_size < st.curLen + a.length
      · have hcur := hcond hlt
        have h0 : st.curLen = 0 := by
          rw [hlen, hcur]
          rfl
        omega
      · omega
    · intro c hc
      obtain ⟨r, hr⟩ := hseed c hc
      refine ⟨r ++ a, ?_⟩
      rw [List.flatten_append, hr]
      simp

theorem chunkInv_final {cfg : ChunkCfg} {M : Nat}
    {st : ChunkState} (md : List (List Char × Val)) (hov : 0 < cfg.chunk_overlap)
    (hinv : ChunkInv cfg M st) :
    (∀ c ∈ chunkFinal md st,
        c.text ≠ [] ∧ pyStrip c.text = c.text ∧ c.text.length ≤ M) ∧
    List.Chain' (chainRel cfg.chunk_overlap) (chunkFinal md st) := by
  obtain ⟨hlen, hbound, hchunks, hchain, hseed⟩ := hinv
  by_cases h1 : st.cur = []
  · rw [chunkFinal_nil_cur h1]
    exact ⟨hchunks, hchain⟩
  · by_cases h2 : pyStrip st.cur.flatten = []
    · rw [chunkFinal_empty h1 h2]
      exact ⟨hchunks, hchain⟩
    · rw [chunkFinal_rec h1 h2]
      have hTlen : (pyStrip st.cur.flatten).length ≤ M := by
        calc (pyStrip st.cur.flatten).length ≤ st.cur.flatten.length :=
            pyStrip_length_le _
          _ = st.curLen := hlen.symm
          _ ≤ M := hbound
      constructor
      · intro c hc
        rcases List.mem_append.mp hc with hc | hc
        · exact hchunks c hc
        · rw [List.mem_singleton] at hc
          subst hc
          exact ⟨h2, pyStrip_idem _, hTlen⟩
      · rw [List.chain'_append]
        refine ⟨hchain, List.chain'_singleton _, ?_⟩
        intro x hx y hy
        simp only [List.head?_cons, Option.mem_def, Option.some.injEq] at hy
        subst hy
        obtain ⟨r, hr⟩ := hseed x hx
        have hxmem : x ∈ st.chunks := by
          have hne : st.chunks ≠ [] := by
            intro hh
            rw [hh] at hx
            cases hx
          rw [Option.mem_def, List.getLast?_eq_getLast _ hne] at hx
          obtain rfl : st.chunks.getLast hne = x := by injection hx
          exact List.getLast_mem hne
        obtain ⟨-, s, hs1, hs2, hs3, hs4⟩ := close_link hov (hchunks x hxmem) hr
        exact ⟨s, hs1, hs2, hs3, hs4⟩

/-- Variant of `foldlM_option_inv` where the step preservation is only
required for elements of the folded list. -/
theorem foldlM_option_inv_mem {σ α : Type} {f : σ → α → Option σ} {P : σ → Prop} :
    ∀ (l : List α), (∀ s a s', a ∈ l → P s → f s a = some s' → P s') →
      ∀ s s', P s → l.foldlM f s = some s' → P s' := by
  intro l
  induction l with
  | nil =>
    intro _ s s' hP h
    rw [List.foldlM_nil] at h
    cases h
    exact hP
  | cons a l ih =>
    intro hf s s' hP h
    rw [List.foldlM_cons] at h
    obtain ⟨s1, h1, h2⟩ := Option.bind_eq_some.mp h
    exact ih (fun s a s' ha => hf s a s' (List.mem_cons_of_mem _ ha)) s1 s'
      (hf s a s1 (List.mem_cons_self _ _) hP h1) h2

/-- Every run of `chunk_text` on any input yields chunks bounded by
`max chunk_size (chunk_overlap + chunk_size + sepsTotal)`, consecutive
chunks overlapping by a non-empty suffix of at most `chunk_overlap`
characters. -/
theorem chunk_text_bound_chain {cfg : ChunkCfg} (hcs : 1 ≤ cfg.chunk_size)
    (hov : 0 < cfg.chunk_overlap) {t : List Char} {md : List (List Char × Val)}
    {cs : List TextChunk} (h : chunk_text cfg t md = some cs) :
    (∀ c ∈ cs, c.text.length ≤
        max cfg.chunk_size (cfg.chunk_overlap + (cfg.chunk_size + sepsTotal cfg.separators))) ∧
    List.Chain' (chainRel cfg.chunk_overlap) cs := by
  unfold chunk_text at h
  split at h
  · cases h
    exact ⟨by simp, List.chain'_nil⟩
  · obtain ⟨st, h1, h2⟩ := Option.bind_eq_some.mp h
    cases h2
    have hinv : ChunkInv cfg
        (max cfg.chunk_size (cfg.chunk_overlap + (cfg.chunk_size + sepsTotal cfg.separators))) st := by
      refine foldlM_option_inv_mem _ ?_ _ _ ?_ h1
      · intro s a s' hamem hP hstep
        exact chunkInv_step hov rfl (splitText_bound hcs _ _ _ hamem) hP hstep
      · refine ⟨rfl, by simp [chunkInit], ?_, ?_, ?_⟩
        · intro c hc
          simp [chunkInit] at hc
        · simp [chunkInit]
        · intro c hc
          simp [chunkInit] at hc
    have hfin := chunkInv_final md hov hinv
    exact ⟨fun c hc => (hfin.1 c hc).2.2, hfin.2⟩

/-- C2 fails as stated: `cexInput` is a 2,500-character plain-prose
input with no paragraph breaks, yet `chunk_text` with
`chunk_size = 1000`, `chunk_overlap = 200` emits a chunk of 1,001
characters (a 1,000-character sentence keeps its reattached `". "`
separator and, after stripping the trailing space, exceeds
`chunk_size`). -/
theorem C2_chunk_bounds_counterexample :
    isPlainProse cexInput ∧
    ∃ cs, chunk_text defaultCfg cexInput [] = some cs ∧
      ¬ (∀ c ∈ cs, c.text.length ≤ 1000) := by
  refine ⟨cex_prose, ?_⟩
  obtain ⟨cs, hcs, hmem⟩ := cex_trace
  refine ⟨cs, hcs, fun hall => ?_⟩
  have h1 := hall _ hmem
  rw [show (⟨cexA ++ ['.'], 0, 0, 1001, []⟩ : TextChunk).text = cexA ++ ['.']
    from rfl, cexT1_length] at h1
  omega

/-- C2 (amended): for every 2,500-character plain-prose input with no
paragraph breaks, every chunk returned by `chunk_text` with
`chunk_size = 1000` and `chunk_overlap = 200` has at most
`1000 + 200 + 14 = 1214` characters (`14` being the total length of the
separator strings; the bound `1000` claimed by the spec is exceeded by
at most an overlap plus reattached separators, see the
counterexample), and every chunk after the first begins with a
non-empty final suffix of at most 200 characters of its predecessor's
text. -/
theorem C2_chunk_bounds_amended (t : List Char) (md : List (List Char × Val))
    (cs : List TextChunk) (hp : isPlainProse t)
    (h : chunk_text defaultCfg t md = some cs) :
    (∀ c ∈ cs, c.text.length ≤ 1214) ∧
    List.Chain' (chainRel 200) cs := by
  have hb := @chunk_text_bound_chain defaultCfg (by decide) (by decide) _ _ _ h
  have hmax : max defaultCfg.chunk_size
      (defaultCfg.chunk_overlap + (defaultCfg.chunk_size + sepsTotal defaultCfg.separators)) =
      1214 := by decide
  rw [hmax] at hb
  exact hb

/-- Concrete instantiation of `C2_chunk_bounds_amended` at the
plain-prose input `cexInput`. -/
theorem C2_chunk_bounds_amended_witness :
    ∃ cs, chunk_text defaultCfg cexInput [] = some cs ∧
      (∀ c ∈ cs, c.text.length ≤ 1214) ∧ List.Chain' (chainRel 200) cs := by
  obtain ⟨cs, hcs, -⟩ := cex_trace
  exact ⟨cs, hcs, C2_chunk_bounds_amended cexInput [] cs cex_prose hcs⟩

/-- C9: every chunk produced by `chunk_text` (and hence by
`chunk_document_pages`) has non-empty text equal to its own strip. -/
theorem C9_chunks_stripped (cfg : ChunkCfg) :
    (∀ (t : List Char) (md : List (List Char × Val)) (cs : List TextChunk),
        chunk_text cfg t md = some cs →
        ∀ c ∈ cs, c.text ≠ [] ∧ pyStrip c.text = c.text) ∧
    (∀ (pages : List Page) (d f : List Char) (cs : List TextChunk),
        chunk_document_pages cfg pages d f = some cs →
        ∀ c ∈ cs, c.text ≠ [] ∧ pyStrip c.text = c.text) := by
  have hct : ∀ (t : List Char) (md : List (List Char × Val)) (cs : List TextChunk),
      chunk_text cfg t md = some cs →
      ∀ c ∈ cs, c.text ≠ [] ∧ pyStrip c.text = c.text := by
    intro t md cs h
    unfold chunk_text at h
    split at h
    · cases h
      intro c hc
      simp at hc
    · obtain ⟨st, h1, h2⟩ := Option.bind_eq_some.mp h
      cases h2
      have hinv : StrippedInv st :=
        foldlM_option_inv (fun s a s' => chunkStep_stripped)
          (splitText cfg.chunk_size cfg.separators t) chunkInit st
          (by intro c hc; simp [chunkInit] at hc) h1
      exact chunkFinal_stripped hinv
  refine ⟨hct, ?_⟩
  have hgo : ∀ (d f : List Char) (ps : List Page) (g : Nat) (cs : List TextChunk),
      chunkPagesGo cfg d f ps g = some cs →
      ∀ c ∈ cs, c.text ≠ [] ∧ pyStrip c.text = c.text := by
    intro d f ps
    induction ps with
    | nil =>
      intro g cs h
      simp only [chunkPagesGo] at h
      cases h
      intro c hc
      simp at hc
    | cons p ps ih =>
      intro g cs h
      simp only [chunkPagesGo] at h
      split at h
      · exact ih g cs h
      · obtain ⟨cs0, h1, h2⟩ := Option.bind_eq_some.mp h
        obtain ⟨rest, h3, h4⟩ := Option.bind_eq_some.mp h2
        cases h4
        intro c hc
        simp only [List.mem_append] at hc
        rcases hc with hc | hc
        · obtain ⟨c0, hc0, he⟩ := renumber_mem_text hc
          rw [he]
          exact hct p.text _ cs0 h1 c0 hc0
        · exact ih (g + cs0.length) rest h3 c hc
  intro pages d f cs h
  exact hgo d f pages 0 cs h

/-- Concrete instantiation of `C9_chunks_stripped`. -/
theorem C9_chunks_stripped_witness :
    ∀ c ∈ (chunk_text ⟨10, 3, defaultSeparators⟩ " aaaa bbbb cccc ".toList []).getD [],
      c.text ≠ [] ∧ pyStrip c.text = c.text := by
  intro c hc
  exact (C9_chunks_stripped ⟨10, 3, defaultSeparators⟩).1 " aaaa bbbb cccc ".toList []
    ((chunk_text ⟨10, 3, defaultSeparators⟩ " aaaa bbbb cccc ".toList []).getD [])
    (by decide) c hc

/-- C7: `estimate_chunk_count` returns `0` on the empty text, `1` on
non-empty text with `chunk_size ≤ chunk_overlap`, and otherwise
`max 1 (⌈len / (chunk_size - chunk_overlap)⌉)` (the ceiling is pinned
by the two division-free bounds); it is at least `1` on every non-empty
text. -/
theorem C7_estimate_chunk_count (cfg : ChunkCfg) (t : List Char) :
    (t = [] → estimate_chunk_count cfg t = 0) ∧
    (t ≠ [] → cfg.chunk_size ≤ cfg.chunk_overlap →
      estimate_chunk_count cfg t = 1) ∧
    (t ≠ [] → cfg.chunk_overlap < cfg.chunk_size →
      estimate_chunk_count cfg t =
        max 1 ((t.length + (cfg.chunk_size - cfg.chunk_overlap) - 1) /
               (cfg.chunk_size - cfg.chunk_overlap)) ∧
      t.length ≤ estimate_chunk_count cfg t * (cfg.chunk_size - cfg.chunk_overlap) ∧
      (estimate_chunk_count cfg t - 1) * (cfg.chunk_size - cfg.chunk_overlap) <
        t.length) ∧
    (t ≠ [] → 1 ≤ estimate_chunk_count cfg t) := by
  refine ⟨fun h => by simp [estimate_chunk_count, h], ?_, ?_, ?_⟩
  · intro ht hle
    have he : cfg.chunk_size - cfg.chunk_overlap = 0 := Nat.sub_eq_zero_of_le hle
    simp [estimate_chunk_count, ht, he]
  · intro ht hov
    have hepos : 0 < cfg.chunk_size - cfg.chunk_overlap := by omega
    have hlen : 1 ≤ t.length := List.length_pos.mpr ht
    have hq : 1 ≤ (t.length + (cfg.chunk_size - cfg.chunk_overlap) - 1) /
        (cfg.chunk_size - cfg.chunk_overlap) := by
      rw [Nat.le_div_iff_mul_le hepos]
      omega
    have hest : estimate_chunk_count cfg t =
        (t.length + (cfg.chunk_size - cfg.chunk_overlap) - 1) /
        (cfg.chunk_size - cfg.chunk_overlap) := by
      simp only [estimate_chunk_count, ht, if_false, if_neg (by omega : ¬ (cfg.chunk_size - cfg.chunk_overlap = 0))]
      exact Nat.max_eq_right hq
    have hdm := Nat.div_add_mod (t.length + (cfg.chunk_size - cfg.chunk_overlap) - 1)
      (cfg.chunk_size - cfg.chunk_overlap)
    have hmod := Nat.mod_lt (t.length + (cfg.chunk_size - cfg.chunk_overlap) - 1) hepos
    refine ⟨by rw [hest, Nat.max_eq_right hq], ?_, ?_⟩
    · rw [hest, Nat.mul_comm]
      generalize hqe : (cfg.chunk_size - cfg.chunk_overlap) *
        ((t.length + (cfg.chunk_size - cfg.chunk_overlap) - 1) /
         (cfg.chunk_size - cfg.chunk_overlap)) = m at hdm ⊢
      omega
    · rw [hest, Nat.sub_mul, one_mul, Nat.mul_comm]
      generalize hqe : (cfg.chunk_size - cfg.chunk_overlap) *
        ((t.length + (cfg.chunk_size - cfg.chunk_overlap) - 1) /
         (cfg.chunk_size - cfg.chunk_overlap)) = m at hdm ⊢
      omega
  · intro ht
    by_cases he : cfg.chunk_size - cfg.chunk_overlap = 0
    · simp [estimate_chunk_count, ht, he]
    · simp only [estimate_chunk_count, ht, if_false, if_neg he]
      exact le_max_left _ _

/-- Concrete instantiation of `C7_estimate_chunk_count`: the empty
text, a degenerate configuration, and the default configuration on a
2,500-character text (`⌈2500 / 800⌉ = 4`). -/
theorem C7_estimate_chunk_count_witness :
    estimate_chunk_count defaultCfg [] = 0 ∧
    estimate_chunk_count ⟨100, 200, defaultSeparators⟩ "abc".toList = 1 ∧
    estimate_chunk_count defaultCfg (List.replicate 2500 'a') = max 1 ((2500 + 800 - 1) / 800) := by
  have hne : List.replicate 2500 'a' ≠ [] := by
    intro h
    have h2 := congrArg List.length h
    rw [List.length_replicate] at h2
    exact absurd h2 (by decide)
  refine ⟨(C7_estimate_chunk_count defaultCfg []).1 rfl,
    (C7_estimate_chunk_count ⟨100, 200, defaultSeparators⟩ "abc".toList).2.1
      (by decide) (by decide), ?_⟩
  have h := ((C7_estimate_chunk_count defaultCfg (List.replicate 2500 'a')).2.2.1
    hne (by decide)).1
  rw [List.length_replicate] at h
  exact h

/-! ## Lemmas about `embed_texts` (C3) -/

theorem getD_set_self {l : List (List Int)} {i : Nat} {v : List Int}
    (h : i < l.length) : (l.set i v).getD i [] = v := by
  rw [List.getD_eq_getElem?_getD, List.getElem?_set_self h]
  rfl

theorem getD_set_ne {l : List (List Int)} {i j : Nat} {v : List Int}
    (h : i ≠ j) : (l.set i v).getD j [] = l.getD j [] := by
  rw [List.getD_eq_getElem?_getD, List.getElem?_set_ne h,
      ← List.getD_eq_getElem?_getD]

/-- Generic invariant lemma for `List.foldl`. -/
theorem foldl_inv {σ β : Type} {g : σ → β → σ} {P : σ → Prop} :
    ∀ (l : List β) (s : σ), (∀ s b, b ∈ l → P s → P (g s b)) → P s →
      P (l.foldl g s) := by
  intro l
  induction l with
  | nil => intro s _ hP; exact hP
  | cons b l ih =>
    intro s hg hP
    exact ih (g s b) (fun s c hc => hg s c (List.mem_cons_of_mem _ hc))
      (hg s b (List.mem_cons_self _ _) hP)

theorem retryBatch_length (P : Provider) (B : List (Nat × List Char))
    (emb : List (List Int)) : (retryBatch P emb B).length = emb.length := by
  unfold retryBatch
  induction B generalizing emb with
  | nil => rfl
  | cons b B ih => rw [List.foldl_cons, ih, List.length_set]

theorem processBatch_length (P : Provider) (B : List (Nat × List Char))
    (emb : List (List Int)) : (processBatch P emb B).length = emb.length := by
  unfold processBatch
  split
  · split
    · induction B.zip _ generalizing emb with
      | nil => rfl
      | cons b l ih => rw [List.foldl_cons, ih, List.length_set]
    · exact retryBatch_length P B emb
  · exact retryBatch_length P B emb

theorem retryBatch_untouched {P : Provider} {B : List (Nat × List Char)}
    {emb : List (List Int)} {i : Nat} (h : ∀ it ∈ B, it.1 ≠ i) :
    (retryBatch P emb B).getD i [] = emb.getD i [] := by
  unfold retryBatch
  induction B generalizing emb with
  | nil => rfl
  | cons b B ih =>
    rw [List.foldl_cons]
    rw [ih (fun it hit => h it (List.mem_cons_of_mem _ hit))]
    exact getD_set_ne (h b (List.mem_cons_self _ _))

theorem foldl_set_untouched {i : Nat} :
    ∀ (l : List ((Nat × List Char) × List Int)) (emb : List (List Int)),
      (∀ iv ∈ l, iv.1.1 ≠ i) →
      (l.foldl (fun e iv => e.set iv.1.1 iv.2) emb).getD i [] = emb.getD i [] := by
  intro l
  induction l with
  | nil => intro emb _; rfl
  | cons b l ih =>
    intro emb h
    rw [List.foldl_cons, ih _ (fun iv hiv => h iv (List.mem_cons_of_mem _ hiv))]
    exact getD_set_ne (h b (List.mem_cons_self _ _))

theorem processBatch_untouched {P : Provider} {B : List (Nat × List Char)}
    {emb : List (List Int)} {i : Nat} (h : ∀ it ∈ B, it.1 ≠ i) :
    (processBatch P emb B).getD i [] = emb.getD i [] := by
  unfold processBatch
  split
  · split
    · rename_i vs _ _
      exact foldl_set_untouched (B.zip vs) emb
        (fun iv hiv => h iv.1 (List.of_mem_zip hiv).1)
    · exact retryBatch_untouched h
  · exact retryBatch_untouched h

theorem retryBatch_value {P : Provider} :
    ∀ {B : List (Nat × List Char)} {emb : List (List Int)},
      List.Pairwise (fun a b => a.1 < b.1) B → (∀ it ∈ B, it.1 < emb.length) →
      ∀ it ∈ B, (retryBatch P emb B).getD it.1 [] = (P.singleRes it.2).getD [] := by
  intro B
  induction B with
  | nil => intro emb _ _ it hit; cases hit
  | cons b B ih =>
    intro emb hpw hlt it hit
    rw [List.pairwise_cons] at hpw
    rcases List.mem_cons.mp hit with rfl | hit
    · show (retryBatch P _ (it :: B)).getD it.1 [] = _
      unfold retryBatch
      rw [List.foldl_cons]
      have huntouched : ∀ it2 ∈ B, it2.1 ≠ it.1 := by
        intro it2 hit2
        have := hpw.1 it2 hit2
        omega
      have := @retryBatch_untouched P B
        (emb.set it.1 ((P.singleRes it.2).getD [])) it.1 huntouched
      unfold retryBatch at this
      rw [this]
      exact getD_set_self (hlt it (List.mem_cons_self _ _))
    · show (retryBatch P _ (b :: B)).getD it.1 [] = _
      unfold retryBatch
      rw [List.foldl_cons]
      have hlt2 : ∀ it2 ∈ B, it2.1 < (emb.set b.1 ((P.singleRes b.2).getD [])).length := by
        intro it2 hit2
        rw [List.length_set]
        exact hlt it2 (List.mem_cons_of_mem _ hit2)
      have := @ih (emb.set b.1 ((P.singleRes b.2).getD [])) hpw.2 hlt2 it hit
      unfold retryBatch at this
      exact this

/-- On a failed whole-batch call, `processBatch` is the per-item
retry. -/
theorem processBatch_of_batch_failure {P : Provider} {B : List (Nat × List Char)}
    {emb : List (List Int)} (h : P.batchRes (B.map Prod.snd) = none) :
    processBatch P emb B = retryBatch P emb B := by
  unfold processBatch
  rw [h]

theorem fold_batches_length {P : Provider} (bss : List (List (Nat × List Char)))
    (emb : List (List Int)) :
    (bss.foldl (processBatch P) emb).length = emb.length := by
  induction bss generalizing emb with
  | nil => rfl
  | cons B bss ih => rw [List.foldl_cons, ih, processBatch_length]

/-- The value at the position of an item of a batch whose whole-batch
call fails: the individual retry result (empty-vector fallback
included); all other batches leave the position untouched. -/
theorem fold_batches_value {P : Provider} :
    ∀ (bss : List (List (Nat × List Char))) (emb : List (List Int)),
      List.Pairwise (fun a b => a.1 < b.1) bss.flatten →
      (∀ it ∈ bss.flatten, it.1 < emb.length) →
      ∀ B ∈ bss, P.batchRes (B.map Prod.snd) = none →
        ∀ it ∈ B, (bss.foldl (processBatch P) emb).getD it.1 [] =
          (P.singleRes it.2).getD [] := by
  intro bss
  induction bss with
  | nil => intro emb _ _ B hB; cases hB
  | cons B0 bss ih =>
    intro emb hpw hlt B hB hfail it hit
    rw [List.flatten_cons, List.pairwise_append] at hpw
    rw [List.foldl_cons]
    rcases List.mem_cons.mp hB with rfl | hB
    · -- the item's own batch is processed first; later batches have
      -- strictly larger indices and leave the position untouched
      have hval : (processBatch P emb B).getD it.1 [] = (P.singleRes it.2).getD [] := by
        rw [processBatch_of_batch_failure hfail]
        have hlt1 : ∀ it2 ∈ B, it2.1 < emb.length := by
          intro it2 hit2
          refine hlt it2 ?_
          rw [List.flatten_cons]
          exact List.mem_append_left _ hit2
        exact retryBatch_value hpw.1 hlt1 it hit
      have hrest : ∀ B2 ∈ bss, ∀ it2 ∈ B2, it2.1 ≠ it.1 := by
        intro B2 hB2 it2 hit2
        have := hpw.2.2 it hit it2 (List.mem_flatten.mpr ⟨B2, hB2, hit2⟩)
        omega
      refine @foldl_inv _ _ (processBatch P)
        (fun e => e.getD it.1 [] = (P.singleRes it.2).getD []) bss
        (processBatch P emb B) ?_ hval
      intro e B2 hB2 he
      rw [processBatch_untouched (hrest B2 hB2)]
      exact he
    · exact ih (processBatch P emb B0) hpw.2.1
        (fun it2 hit2 => by
          rw [processBatch_length]
          exact hlt it2 (by rw [List.flatten_cons]; exact List.mem_append_right _ hit2))
        B hB hfail it hit

theorem validPairs_mem {n : Nat} {ts : List (List Char)} {it : Nat × List Char}
    (h : it ∈ validPairs n ts) :
    ∃ j, it.1 = n + j ∧ j < ts.length ∧ pyStrip (ts.getD j []) ≠ [] ∧
      it.2 = pyStrip (ts.getD j []) := by
  induction ts generalizing n with
  | nil => cases h
  | cons t ts ih =>
    simp only [validPairs] at h
    rcases List.mem_append.mp h with h | h
    · split at h
      · rw [List.mem_singleton] at h
        subst h
        exact ⟨0, by omega, by simp, by simpa using (by assumption), by simp⟩
      · cases h
    · obtain ⟨j, hj1, hj2, hj3, hj4⟩ := ih h
      exact ⟨j + 1, by omega, by simp; omega, by simpa using hj3, by simpa using hj4⟩

theorem validPairs_lower {n : Nat} {ts : List (List Char)} :
    ∀ it ∈ validPairs n ts, n ≤ it.1 := by
  intro it h
  obtain ⟨j, hj, -⟩ := validPairs_mem h
  omega

theorem validPairs_pairwise {n : Nat} {ts : List (List Char)} :
    List.Pairwise (fun a b => a.1 < b.1) (validPairs n ts) := by
  induction ts generalizing n with
  | nil => exact List.Pairwise.nil
  | cons t ts ih =>
    simp only [validPairs]
    rw [List.pairwise_append]
    refine ⟨?_, ih, ?_⟩
    · split
      · simp
      · simp
    · intro a ha b hb
      have hb' := validPairs_lower b hb
      split at ha
      · rw [List.mem_singleton] at ha
        subst ha
        simp only []
        omega
      · cases ha

theorem batchifyF_flatten {α : Type} {bs : Nat} :
    ∀ (fuel : Nat) (l : List α), l.length ≤ fuel →
      (batchifyF bs fuel l).flatten = l := by
  intro fuel
  induction fuel with
  | zero =>
    intro l h
    have : l = [] := List.eq_nil_of_length_eq_zero (by omega)
    subst this
    rfl
  | succ fuel ih =>
    intro l h
    cases l with
    | nil => rfl
    | cons x xs =>
      have hlen : (xs.drop (bs - 1)).length ≤ fuel := by
        rw [List.length_drop]
        simp only [List.length_cons] at h
        omega
      simp only [batchifyF, List.flatten_cons]
      rw [ih _ hlen, List.cons_append, List.take_append_drop]

theorem batchify_flatten {α : Type} {bs : Nat} (l : List α) :
    (batchify bs l).flatten = l :=
  batchifyF_flatten l.length l le_rfl

theorem map_const_getD (l : List (List Char)) (i : Nat) :
    (l.map (fun _ => ([] : List Int))).getD i [] = [] := by
  induction l generalizing i with
  | nil => rfl
  | cons t ts ih =>
    cases i with
    | zero => rfl
    | succ i => exact ih i

/-- C3 fails as stated: with `batch_size = 0` and a non-empty input,
`range(0, n, 0)` raises `ValueError` before any embedding happens, so
`embed_texts` does not return at all. -/
theorem C3_embed_texts_counterexample :
    embed_texts ⟨fun _ => none, fun _ => none⟩ [['a']] 0 = none := rfl

/-- C3 (amended): for every provider, text list and `batch_size ≥ 1`,
`embed_texts` returns (never raises) a list of exactly `len(texts)`
vectors; positions whose text is empty or whitespace-only hold the
empty vector; and for every batch whose whole-batch call fails, each
item of the batch is retried individually, an item whose individual
call also fails yielding the empty vector at its position while every
other item of the batch gets its successful individual embedding. -/
theorem C3_embed_texts_amended (P : Provider) (texts : List (List Char))
    (bs : Nat) (hbs : 1 ≤ bs) :
    ∃ r, embed_texts P texts bs = some r ∧
      r.length = texts.length ∧
      (∀ i, i < texts.length → pyStrip (texts.getD i []) = [] → r.getD i [] = []) ∧
      (∀ B ∈ batchify bs (validPairs 0 texts),
        P.batchRes (B.map Prod.snd) = none →
        ∀ it ∈ B, r.getD it.1 [] = (P.singleRes it.2).getD []) := by
  unfold embed_texts
  by_cases h0 : texts = []
  · subst h0
    refine ⟨[], ?_, rfl, ?_, ?_⟩
    · rw [if_pos rfl]
    · intro i hi hstrip
      exact absurd hi (Nat.not_lt_zero i)
    · intro B hB
      exact absurd hB (List.not_mem_nil B)
  · rw [if_neg h0]
    by_cases hv : validPairs 0 texts = []
    · rw [if_pos hv]
      refine ⟨_, rfl, by rw [List.length_map], ?_, ?_⟩
      · intro i _ _
        exact map_const_getD texts i
      · intro B hB
        rw [hv] at hB
        exact absurd hB (List.not_mem_nil B)
    · rw [if_neg hv, if_neg (by omega : ¬ bs = 0)]
      refine ⟨_, rfl, ?_, ?_, ?_⟩
      · rw [fold_batches_length, List.length_map]
      · intro i hi hws
        have huntouched : ∀ it ∈ (batchify bs (validPairs 0 texts)).flatten, it.1 ≠ i := by
          rw [batchify_flatten]
          intro it hit heq
          obtain ⟨j, hj1, hj2, hj3, -⟩ := validPairs_mem hit
          rw [Nat.zero_add] at hj1
          rw [hj1] at heq
          subst heq
          exact hj3 hws
        refine @foldl_inv _ _ (processBatch P) (fun e => e.getD i [] = [])
          (batchify bs (validPairs 0 texts))
          (texts.map fun _ => []) ?_ (map_const_getD texts i)
        intro e B hB he
        rw [processBatch_untouched
          (fun it hit => huntouched it (List.mem_flatten.mpr ⟨B, hB, hit⟩))]
        exact he
      · intro B hB hfail it hit
        refine fold_batches_value _ _ ?_ ?_ B hB hfail it hit
        · rw [batchify_flatten]
          exact validPairs_pairwise
        · rw [batchify_flatten]
          intro it2 hit2
          obtain ⟨j, hj1, hj2, -⟩ := validPairs_mem hit2
          rw [List.length_map]
          omega

/-- Concrete instantiation of `C3_embed_texts_amended`: a provider
whose batch call fails and whose individual call succeeds only on
`"b"`; the whitespace-only entry gets the empty vector, the entry that
still fails gets the empty vector, and `"b"` keeps its embedding. -/
theorem C3_embed_texts_amended_witness :
    ∃ r, embed_texts
        ⟨fun _ => none, fun t => if t = ['b'] then some [7] else none⟩
        [['a'], [' '], ['b']] 2 = some r ∧
      r.length = 3 ∧ r.getD 1 [] = [] ∧ r.getD 0 [] = [] ∧ r.getD 2 [] = [7] := by
  obtain ⟨r, hr, hlen, hws, hbatch⟩ := C3_embed_texts_amended
    ⟨fun _ => none, fun t => if t = ['b'] then some [7] else none⟩
    [['a'], [' '], ['b']] 2 (by decide)
  refine ⟨r, hr, hlen, hws 1 (by decide) (by decide), ?_, ?_⟩
  · have := hbatch [(0, ['a']), (2, ['b'])] (by decide) (by decide)
      (0, ['a']) (by decide)
    simpa using this
  · have := hbatch [(0, ['a']), (2, ['b'])] (by decide) (by decide)
      (2, ['b']) (by decide)
    simpa using this

/-! ## C5: `retrieve_with_fallback` -/

/-- C5: `retrieve_with_fallback` never raises — it is a total function
into `RetrievalResult` by construction, every branch of `retrieve`
included (an embedding failure is returned as a failure result) — and
whenever the vector-store health check reports unhealthy it returns,
independently of every other input and of the store contents, hence
without attempting retrieval, the failure result with `success = false`,
empty chunks, citations and context text, and the
"RAG service unavailable" error. -/
theorem C5_retrieve_with_fallback (env : RetrieverEnv)
    (userId query : List Char) (projectId : Option Int)
    (documentId : Option (List Char)) (topK : Option Nat)
    (h : env.health = false) :
    retrieve_with_fallback env userId query projectId documentId topK =
      ⟨false, [], [], [], 0, some "RAG service unavailable".toList⟩ := by
  unfold retrieve_with_fallback
  rw [h]
  rfl

/-- Concrete instantiation of `C5_retrieve_with_fallback` at an
unhealthy environment. -/
theorem C5_retrieve_with_fallback_witness :
    (⟨[], fun _ _ => 0, 0, 3, [], fun _ => .ok [], false⟩ : RetrieverEnv).health = false ∧
    retrieve_with_fallback ⟨[], fun _ _ => 0, 0, 3, [], fun _ => .ok [], false⟩
      "u".toList "q".toList none none none =
      ⟨false, [], [], [], 0, some "RAG service unavailable".toList⟩ :=
  ⟨rfl, C5_retrieve_with_fallback _ _ _ _ _ _ rfl⟩

/-! ## Store lemmas for C1 and C8 -/

theorem setColl_fst (c : List Char × List QPoint) (n : List Char)
    (pts : List QPoint) : (if c.1 = n then (c.1, pts) else c).1 = c.1 := by
  by_cases h : c.1 = n
  · rw [if_pos h]
  · rw [if_neg h]

theorem collection_exists_setColl (s : Store) (n m : List Char)
    (pts : List QPoint) :
    collection_exists (setColl s n pts) m = collection_exists s m := by
  unfold collection_exists setColl
  induction s with
  | nil => rfl
  | cons c s ih =>
    simp only [List.map_cons, List.any_cons, ih, setColl_fst]

theorem collPoints_cons_pos {c : List Char × List QPoint} {n : List Char}
    (h : c.1 = n) (s : Store) : collPoints (c :: s) n = c.2 := by
  unfold collPoints
  rw [List.find?_cons_of_pos _ (by simp [h])]

theorem collPoints_cons_neg {c : List Char × List QPoint} {n : List Char}
    (h : ¬ c.1 = n) (s : Store) : collPoints (c :: s) n = collPoints s n := by
  unfold collPoints
  rw [List.find?_cons_of_neg _ (by simp [h])]

theorem collPoints_setColl_self {n : List Char} {pts : List QPoint} :
    ∀ (s : Store), collection_exists s n = true →
      collPoints (setColl s n pts) n = pts := by
  intro s
  induction s with
  | nil => intro h; cases h
  | cons c s ih =>
    intro h
    show collPoints ((if c.1 = n then (c.1, pts) else c) :: setColl s n pts) n = pts
    by_cases hc : c.1 = n
    · rw [if_pos hc]
      exact @collPoints_cons_pos (c.1, pts) n hc (setColl s n pts)
    · rw [if_neg hc, collPoints_cons_neg hc (setColl s n pts)]
      apply ih
      unfold collection_exists at h ⊢
      rw [List.any_cons, Bool.or_eq_true] at h
      rcases h with h1 | h2
      · exact absurd (of_decide_eq_true h1) hc
      · exact h2

theorem collPoints_setColl_ne {m n : List Char} (hmn : m ≠ n) :
    ∀ (s : Store) (pts : List QPoint),
      collPoints (setColl s n pts) m = collPoints s m := by
  intro s pts
  induction s with
  | nil => rfl
  | cons c s ih =>
    show collPoints ((if c.1 = n then (c.1, pts) else c) :: setColl s n pts) m =
      collPoints (c :: s) m
    by_cases hcm : c.1 = m
    · have hcn : ¬ c.1 = n := by rw [hcm]; exact hmn
      rw [if_neg hcn, collPoints_cons_pos hcm (setColl s n pts),
        collPoints_cons_pos hcm s]
    · by_cases hcn : c.1 = n
      · rw [if_pos hcn,
          @collPoints_cons_neg (c.1, pts) m hcm (setColl s n pts),
          collPoints_cons_neg hcm s, ih]
      · rw [if_neg hcn, collPoints_cons_neg hcm (setColl s n pts),
          collPoints_cons_neg hcm s, ih]

theorem setColl_setColl (s : Store) (n : List Char) (a b : List QPoint) :
    setColl (setColl s n a) n b = setColl s n b := by
  unfold setColl
  rw [List.map_map]
  apply List.map_congr_left
  intro c _
  by_cases hc : c.1 = n
  · simp [Function.comp, hc]
  · simp [Function.comp, hc]

theorem collPoints_append_single {nm m : List Char} (h : ¬ nm = m) :
    ∀ (s : Store) (pts : List QPoint),
      collPoints (s ++ [(nm, pts)]) m = collPoints s m := by
  intro s pts
  induction s with
  | nil =>
    show collPoints [(nm, pts)] m = collPoints [] m
    rw [@collPoints_cons_neg (nm, pts) m h []]
  | cons c s ih =>
    show collPoints (c :: (s ++ [(nm, pts)])) m = collPoints (c :: s) m
    by_cases hc : c.1 = m
    · rw [collPoints_cons_pos hc (s ++ [(nm, pts)]), collPoints_cons_pos hc s]
    · rw [collPoints_cons_neg hc (s ++ [(nm, pts)]), collPoints_cons_neg hc s, ih]

theorem create_collection_snd (pfx : List Char) (s : Store) (u : List Char) :
    (create_collection pfx s u).2 = get_collection_name pfx u := by
  simp only [create_collection]
  by_cases hex : collection_exists s (get_collection_name pfx u) = true
  · rw [if_pos hex]
  · rw [if_neg hex]

theorem collection_exists_create {pfx : List Char} {s : Store} {u m : List Char}
    (hm : ¬ get_collection_name pfx u = m) :
    collection_exists (create_collection pfx s u).1 m = collection_exists s m := by
  simp only [create_collection]
  by_cases hex : collection_exists s (get_collection_name pfx u) = true
  · rw [if_pos hex]
  · rw [if_neg hex]
    show collection_exists (s ++ [(get_collection_name pfx u, [])]) m = _
    unfold collection_exists
    rw [List.any_append]
    simp [hm]

theorem collPoints_create {pfx : List Char} {s : Store} {u m : List Char}
    (hm : ¬ get_collection_name pfx u = m) :
    collPoints (create_collection pfx s u).1 m = collPoints s m := by
  simp only [create_collection]
  by_cases hex : collection_exists s (get_collection_name pfx u) = true
  · rw [if_pos hex]
  · rw [if_neg hex]
    exact collPoints_append_single hm s []

/-! ## C8: `delete_document` idempotence -/

/-- C8: `delete_document` is idempotent: the first and the second of
two consecutive calls both report success, the second call leaves the
store exactly where the first left it, deleting for a user whose
collection does not exist leaves the store untouched (while still
succeeding), and deleting a document id that matches no stored point of
the user's collection leaves every collection's points unchanged. -/
theorem C8_delete_document_idempotent (pfx : List Char) (s : Store)
    (u d : List Char) :
    (delete_document pfx s u d).2 = true ∧
    (delete_document pfx (delete_document pfx s u d).1 u d).2 = true ∧
    (delete_document pfx (delete_document pfx s u d).1 u d).1 =
      (delete_document pfx s u d).1 ∧
    (collection_exists s (get_collection_name pfx u) = false →
      (delete_document pfx s u d).1 = s) ∧
    ((∀ p ∈ collPoints s (get_collection_name pfx u),
        lookupVal p.payload "document_id".toList ≠ some (Val.str d)) →
      ∀ n, collPoints (delete_document pfx s u d).1 n = collPoints s n) := by
  refine ⟨rfl, rfl, ?_, ?_, ?_⟩
  · simp only [delete_document, delete_by_document]
    by_cases hex : collection_exists s (get_collection_name pfx u) = true
    · rw [if_pos hex]
      have hex2 : collection_exists
          (setColl s (get_collection_name pfx u)
            ((collPoints s (get_collection_name pfx u)).filter
              fun p => lookupVal p.payload "document_id".toList ≠ some (Val.str d)))
          (get_collection_name pfx u) = true := by
        rw [collection_exists_setColl]
        exact hex
      rw [if_pos hex2]
      show setColl _ _ ((collPoints (setColl s _ _) _).filter _) = _
      rw [collPoints_setColl_self _ hex, List.filter_filter]
      rw [setColl_setColl]
      congr 1
      apply List.filter_congr
      intro p _
      rw [Bool.and_self]
    · rw [if_neg hex]
      show (if collection_exists s (get_collection_name pfx u) = true then _ else (s, 0)).1 = s
      rw [if_neg hex]
  · intro h
    simp only [delete_document, delete_by_document]
    rw [if_neg (by rw [h]; exact Bool.false_ne_true)]
  · intro h n
    simp only [delete_document, delete_by_document]
    by_cases hex : collection_exists s (get_collection_name pfx u) = true
    · rw [if_pos hex]
      show collPoints (setColl s _ ((collPoints s _).filter _)) n = _
      have hfix : (collPoints s (get_collection_name pfx u)).filter
          (fun p => lookupVal p.payload "document_id".toList ≠ some (Val.str d)) =
          collPoints s (get_collection_name pfx u) :=
        List.filter_eq_self.mpr fun p hp => decide_eq_true (h p hp)
      rw [hfix]
      by_cases hn : n = get_collection_name pfx u
      · subst hn
        rw [collPoints_setColl_self _ hex]
      · rw [collPoints_setColl_ne hn]
    · rw [if_neg hex]

/-- Concrete instantiation of `C8_delete_document_idempotent`: deleting
from the empty store succeeds and is a no-op. -/
theorem C8_delete_document_idempotent_witness :
    (delete_document "user_".toList [] "u".toList "d".toList).2 = true ∧
    (delete_document "user_".toList [] "u".toList "d".toList).1 = [] := by
  have h := C8_delete_document_idempotent "user_".toList [] "u".toList "d".toList
  exact ⟨h.1, h.2.2.2.1 (by decide)⟩

/-! ## C1: per-user isolation -/

/-- C1: per-user isolation.  `get_collection_name` is injective over
user ids for a fixed prefix, and for two distinct user ids `u ≠ v`, an
`upsert_vectors` write under `u` is invisible to `search` scoped to
`v`: the search result over the updated store equals the search result
over the original store, for every query, limit, threshold and filter —
every read and write touches only the collection named
`get_collection_name(user)`. -/
theorem C1_per_user_isolation (pfx : List Char) (supply : Nat → List Char)
    (s : Store) (u v : List Char) (vectors : List (List Int))
    (payloads : List (List (List Char × Val))) (ids : Option (List (List Char)))
    (score : List Int → List Int → Int) (qv : List Int) (limit : Nat)
    (thr : Int) (conds : Option (List (List Char × Val))) :
    (get_collection_name pfx u = get_collection_name pfx v → u = v) ∧
    (u ≠ v →
      search pfx score (upsert_vectors pfx supply s u vectors payloads ids).1
        v qv limit thr conds = search pfx score s v qv limit thr conds) := by
  have inj : get_collection_name pfx u = get_collection_name pfx v → u = v := by
    intro h
    unfold get_collection_name at h
    exact List.append_cancel_left (List.append_cancel_right h)
  refine ⟨inj, ?_⟩
  intro huv
  have hname : ¬ get_collection_name pfx u = get_collection_name pfx v :=
    fun h => huv (inj h)
  simp only [upsert_vectors]
  rw [create_collection_snd]
  simp only [search]
  rw [collection_exists_setColl, collPoints_setColl_ne (fun h => hname h.symm),
    collection_exists_create hname, collPoints_create hname]

/-- Concrete instantiation of `C1_per_user_isolation`: a vector written
for user `u1` is invisible to a search for user `u2`. -/
theorem C1_per_user_isolation_witness :
    search "user_".toList (fun _ _ => 0)
        (upsert_vectors "user_".toList (fun _ => []) [] "u1".toList
          [[1]] [[("document_id".toList, Val.str "d".toList)]] (some [['i']])).1
        "u2".toList [] 3 0 none =
      search "user_".toList (fun _ _ => 0) [] "u2".toList [] 3 0 none :=
  (C1_per_user_isolation "user_".toList (fun _ => []) [] "u1".toList "u2".toList
    [[1]] [[("document_id".toList, Val.str "d".toList)]] (some [['i']])
    (fun _ _ => 0) [] 3 0 none).2 (by decide)

/-! ## C10: `project_id = 0` behaves as no project -/

/-- C10: at the public interface, `project_id = 0` (a falsy value in
Python) behaves exactly as passing no project: `retrieve` returns the
same result with `project_id = 0` as with no `project_id` for every
environment and argument (the project equality filter is omitted, so
the search is project-unrestricted), `ingest_pdf` behaves identically —
result and upsert request included — with `project_id = 0` and with no
`project_id`, and the payload built for a stored chunk contains no
`project_id` key when `project_id = 0`. -/
theorem C10_project_id_zero (env : RetrieverEnv) (userId query : List Char)
    (documentId : Option (List Char)) (topK : Option Nat)
    (cfg : ChunkCfg) (ienv : IngestEnv) (fname : List Char)
    (docIdArg : Option (List Char)) (docId now : List Char) (c : TextChunk) :
    retrieve env userId query (some 0) documentId topK =
      retrieve env userId query none documentId topK ∧
    ingest_pdf cfg ienv fname (some 0) docIdArg =
      ingest_pdf cfg ienv fname none docIdArg ∧
    lookupVal (buildPayload docId fname now (some 0) c) "project_id".toList =
      none := by
  refine ⟨rfl, ?_, rfl⟩
  have hBP : ∀ (d f n : List Char),
      buildPayload d f n (some 0) = buildPayload d f n none :=
    fun d f n => funext fun ch => rfl
  simp only [ingest_pdf, hBP]

/-! ## C4: `ingest_pdf` error handling -/

/-- C4 fails as stated: an exception with an empty message
(`str(e) = ""`, as raised by `Exception()`) thrown by the PDF parser is
caught at the pipeline boundary and converted into a failure result
whose error field is the empty string — not a non-empty error
string. -/
theorem C4_ingest_pdf_counterexample :
    (ingest_pdf defaultCfg
        ⟨Except.error [], Except.ok (), "id".toList, "t".toList, "m".toList,
         ⟨fun _ => none, fun _ => none⟩⟩
        "f.pdf".toList none none).1 =
      ⟨false, "id".toList, "f.pdf".toList, 0, 0, some [], none⟩ := rfl

/-- C4 (amended): `ingest_pdf` always returns an `IngestionResult`
(never propagates an exception — it is total by construction, every
failure branch included); every failure result has
`chunks_created = 0` and carries an error string; the error string is
empty only when it is the verbatim message of an exception raised by
the PDF parser or by the vector-store upsert (every fixed failure
message is non-empty); a result carries no error exactly when it
reports success; and a parsing exception's message is carried verbatim
in the error field. -/
theorem C4_ingest_pdf_amended (cfg : ChunkCfg) (env : IngestEnv)
    (fname : List Char) (projectId : Option Int)
    (documentId : Option (List Char)) :
    ((ingest_pdf cfg env fname projectId documentId).1.success = false →
      (ingest_pdf cfg env fname projectId documentId).1.chunks_created = 0 ∧
      ∃ e, (ingest_pdf cfg env fname projectId documentId).1.error = some e) ∧
    (∀ e, (ingest_pdf cfg env fname projectId documentId).1.error = some e →
      e ≠ [] ∨ env.parse = Except.error e ∨ env.upsertRes = Except.error e) ∧
    ((ingest_pdf cfg env fname projectId documentId).1.error = none ↔
      (ingest_pdf cfg env fname projectId documentId).1.success = true) ∧
    (∀ pe, env.parse = Except.error pe →
      (ingest_pdf cfg env fname projectId documentId).1.error = some pe) := by
  refine ⟨?_, ?_, ?_, ?_⟩
  · simp only [ingest_pdf]
    repeat' split
    all_goals intro h
    all_goals first
      | exact ⟨rfl, _, rfl⟩
      | exact Bool.noConfusion h
  · intro e
    simp only [ingest_pdf]
    split
    · rename_i pe hpe
      intro he
      simp at he
      subst he
      right; left
      exact hpe
    · split
      · intro he
        simp at he
        subst he
        left
        decide
      · split
        · intro he
          simp at he
          subst he
          left
          decide
        · split
          · intro he
            simp at he
            subst he
            left
            decide
          · split
            · intro he
              simp at he
              subst he
              left
              decide
            · split
              · intro he
                simp at he
                subst he
                left
                decide
              · split
                · rename_i ue hue
                  intro he
                  simp at he
                  subst he
                  right; right
                  exact hue
                · intro he
                  simp at he
  · simp only [ingest_pdf]
    repeat' split
    all_goals constructor <;> intro h <;>
      first | rfl | exact Option.noConfusion h | exact Bool.noConfusion h
  · intro pe hpe
    simp only [ingest_pdf, hpe]

/-- Concrete instantiation of `C4_ingest_pdf_amended`: a parsing
exception's message is carried verbatim in the failure result. -/
theorem C4_ingest_pdf_amended_witness :
    (ingest_pdf defaultCfg
        ⟨Except.error "boom".toList, Except.ok (), "id".toList, "t".toList,
         "m".toList, ⟨fun _ => none, fun _ => none⟩⟩
        "f.pdf".toList none none).1.error = some "boom".toList :=
  (C4_ingest_pdf_amended defaultCfg
    ⟨Except.error "boom".toList, Except.ok (), "id".toList, "t".toList,
     "m".toList, ⟨fun _ => none, fun _ => none⟩⟩
    "f.pdf".toList none none).2.2.2 "boom".toList rfl

end Rag
